/-
Verification of the Agentic-QA repository against its specification.

This file shallowly embeds the pure decision logic of the repository
(text chunking, intent routing in the chatbot, the QA agent answer path,
announcement-date extraction, OCR text cleaning, and the date table
merge/dedup/sort step) as executable Lean definitions, and proves or
refutes the specification claims about them.

External services (FAISS similarity search, the HuggingFace completion
API, Streamlit rendering) are modelled as opaque parameters or oracle
functions: the claims under verification only concern how the
repository code routes around them and post-processes their results.
-/
import Mathlib

set_option maxRecDepth 4000

namespace AgenticQA

/-! ## Python string primitives

The repository is Python; its string operations (strip, lower, `in`,
split, zfill) are embedded here on `List Char` / `String`.  Characters
are Unicode scalar values in both Python and Lean, so `List Char`
lengths agree with Python `len` on `str`.
-/

/-- Code points of the characters matched by Python `\s` (re, Unicode mode)
and stripped by `str.strip()`: the Unicode whitespace set as implemented
by CPython. -/
def wsCodes : List Nat :=
  [0x09, 0x0a, 0x0b, 0x0c, 0x0d, 0x1c, 0x1d, 0x1e, 0x1f, 0x20, 0x85, 0xa0,
   0x1680, 0x2000, 0x2001, 0x2002, 0x2003, 0x2004, 0x2005, 0x2006, 0x2007,
   0x2008, 0x2009, 0x200a, 0x2028, 0x2029, 0x202f, 0x205f, 0x3000]

/-- Python whitespace test (`str.isspace` on a single character, the set
matched by `\s` in a Unicode regex). -/
def isPyWs (c : Char) : Bool := wsCodes.contains c.toNat

/-- Code points treated as line boundaries by Python `str.splitlines`
(plus the two-character boundary `\r\n`, handled in `pySplitlines`). -/
def termCodes : List Nat :=
  [0x0a, 0x0b, 0x0c, 0x0d, 0x1c, 0x1d, 0x1e, 0x85, 0x2028, 0x2029]

/-- Membership in the `str.splitlines` line-boundary character set. -/
def isLineTerm (c : Char) : Bool := termCodes.contains c.toNat

/-- Python `str.strip()` on a character list: drop Unicode whitespace
from both ends. -/
def pyStripL (l : List Char) : List Char :=
  ((l.dropWhile isPyWs).reverse.dropWhile isPyWs).reverse

/-- Python `str.strip()`. -/
def pyStrip (s : String) : String := (pyStripL s.toList).asString

/-- Python `str.lower()`.  Python lowercases the full Unicode range;
the questions routed on in this codebase are ASCII, and only ASCII
lowering is modelled. -/
def pyLower (s : String) : String := (s.toList.map Char.toLower).asString

/-- Python substring test `p in l` on character lists. -/
def containsSub (p : List Char) : List Char → Bool
  | [] => p.isEmpty
  | c :: t => p.isPrefixOf (c :: t) || containsSub p t

/-- Python substring test `p in s` on strings. -/
def strContains (s p : String) : Bool := containsSub p.toList s.toList

/-- Split `l` at the first occurrence of the (nonempty) pattern
`a :: p`: returns the part before the occurrence and the part after it,
or `none` if the pattern does not occur.  This is the step function of
Python `str.split(sep)`. -/
def breakOnSub (a : Char) (p : List Char) : List Char → Option (List Char × List Char)
  | [] => none
  | c :: t =>
    if (a :: p).isPrefixOf (c :: t) then some ([], t.drop p.length)
    else
      match breakOnSub a p t with
      | some (pre, rest) => some (c :: pre, rest)
      | none => none

theorem breakOnSub_rest_length {a : Char} {p : List Char} :
    ∀ {l pre rest : List Char}, breakOnSub a p l = some (pre, rest) →
      rest.length < l.length := by
  intro l
  induction l with
  | nil => intro pre rest h; simp [breakOnSub] at h
  | cons c t ih =>
    intro pre rest h
    simp only [breakOnSub] at h
    split at h
    · simp only [Option.some.injEq, Prod.mk.injEq] at h
      obtain ⟨-, hrest⟩ := h
      subst hrest
      simp only [List.length_cons, List.length_drop]
      omega
    · revert h
      split
      · next pre0 rest0 heq =>
        intro h
        simp only [Option.some.injEq, Prod.mk.injEq] at h
        obtain ⟨-, hrest⟩ := h
        subst hrest
        have := ih heq
        simp only [List.length_cons]
        omega
      · intro h; exact absurd h (by simp)

/-- Python `str.split(sep)` for a nonempty separator `a :: p`:
repeatedly split at the first occurrence.  The result is always
nonempty. -/
def splitOnSub (a : Char) (p : List Char) (l : List Char) : List (List Char) :=
  match h : breakOnSub a p l with
  | none => [l]
  | some (pre, rest) => pre :: splitOnSub a p rest
termination_by l.length
decreasing_by exact breakOnSub_rest_length h

/-! ## Configuration (configs/config.py)

Only the fields the verified code paths read. -/

namespace Config

/-- `ProcessingConfig.CHUNK_SIZE`. -/
def CHUNK_SIZE : Nat := 1000

/-- `ProcessingConfig.CHUNK_OVERLAP`. -/
def CHUNK_OVERLAP : Nat := 100

/-- `ProcessingConfig.RETRIEVER_K`. -/
def RETRIEVER_K : Nat := 5

end Config

/-! ## External collaborators and effects

FAISS stores, the embedding model and the completion API are external
libraries/services.  A store is modelled as the ordered list of chunk
texts it holds (FAISS `merge_from` appends the other store, preserving
order).  Calls to externals are recorded as effects so that claims like
"the retrieval path is not invoked" are statable. -/

/-- Observable external calls made while handling a question. -/
inductive Effect where
  | vectorQuery
  | llmCall
  | vizVehiclesSoldPerYear
  | vizStockVsIndex
  | vizSalesStockCorrelation
deriving DecidableEq

/-- Abstract FAISS vector store: the ordered list of stored chunk texts. -/
structure Store where
  docs : List String
deriving DecidableEq

/-- A directory entry under `Config.paths.INDEX_DIR`: its name, whether
it is a directory, and (when it is a persisted index) the store loaded
from it. -/
structure DirEntry where
  name : String
  isDir : Bool
  store : Store
deriving DecidableEq

/-- Python exceptions that escape the modelled code paths. -/
inductive PyExc where
  | fileNotFoundError (msg : String)
  | attributeError (msg : String)
deriving DecidableEq

instance {ε α : Type} [DecidableEq ε] [DecidableEq α] : DecidableEq (Except ε α) := fun a b =>
  match a, b with
  | Except.ok x, Except.ok y =>
    if h : x = y then isTrue (by rw [h]) else isFalse (by intro hc; cases hc; exact h rfl)
  | Except.error x, Except.error y =>
    if h : x = y then isTrue (by rw [h]) else isFalse (by intro hc; cases hc; exact h rfl)
  | Except.ok _, Except.error _ => isFalse (by intro hc; cases hc)
  | Except.error _, Except.ok _ => isFalse (by intro hc; cases hc)

/-- `FAISS.merge_from`: the base store absorbs the vectors and metadata
of the other store, appended after its own. -/
def merge_from (base other : Store) : Store := ⟨base.docs ++ other.docs⟩

/-! ## QAAgent (src/agents/qa_agent.py) -/

namespace QAAgent

/-- `base_dir.glob("index_faiss_*")` followed by `sorted(...)`:
the entries whose name starts with `index_faiss_`, stably sorted by
name (paths share the parent directory, so path order is name order;
Python `sorted` is a stable sort by `≤`, modelled by insertion sort). -/
def globIndexFaiss (entries : List DirEntry) : List DirEntry :=
  (entries.filter (fun e => "index_faiss_".toList.isPrefixOf e.name.toList)).insertionSort
    (fun a b => a.name ≤ b.name)

/-- `QAAgent.load_all_indexes`: glob and sort the `index_faiss_*`
entries; raise `FileNotFoundError` if there are none; otherwise fold
over them in sorted order, skipping non-directories, loading each index
and merging it into the base store with `merge_from`.  When every
matching entry is a non-directory the Python function falls through and
returns `None` (modelled as `Option.none`). -/
def load_all_indexes (entries : List DirEntry) : Except PyExc (Option Store) :=
  let index_dirs := globIndexFaiss entries
  if index_dirs.isEmpty then
    Except.error (PyExc.fileNotFoundError "No FAISS indexes found")
  else
    Except.ok (index_dirs.foldl
      (fun base path =>
        if path.isDir = false then base
        else
          match base with
          | none => some path.store
          | some b => some (merge_from b path.store))
      none)

/-- `QAAgent.build_prompt`. -/
def build_prompt (context question : String) : String :=
  let sq := (Char.ofNat 39).toString
  let system_instruction :=
    "You are a helpful and precise AI assistant. " ++
    "Use the context to answer the user" ++ sq ++ "s question as accurately as possible. " ++
    "If the context does not contain a clear answer, respond with: " ++ sq ++
    "Not found in context." ++ sq
  system_instruction ++ "\n\n" ++ "Context:\n" ++ pyStrip context ++ "\n\n" ++
    "Question: " ++ pyStrip question ++ "\n\n" ++ "Answer:"

/-- Hexadecimal digit character (lower case), as used by Python string
repr `\xhh` escapes. -/
def hexDigit (n : Nat) : Char :=
  if n < 10 then Char.ofNat (48 + n) else Char.ofNat (87 + n)

/-- Python `repr` escape of one character, given the chosen quote
character: backslash and the quote are backslash-escaped, newline /
carriage return / tab use their mnemonic escapes, remaining ASCII
control characters and DEL use `\xhh`, and all other characters are
kept as-is.  (CPython additionally `\x`-escapes non-printable
non-ASCII characters; the claims here never hit those.) -/
def pyReprChar (quote c : Char) : List Char :=
  if c = Char.ofNat 92 then [Char.ofNat 92, Char.ofNat 92]
  else if c = quote then [Char.ofNat 92, quote]
  else if c = '\n' then [Char.ofNat 92, 'n']
  else if c = '\r' then [Char.ofNat 92, 'r']
  else if c = '\t' then [Char.ofNat 92, 't']
  else if c.toNat < 0x20 || c.toNat = 0x7f then
    [Char.ofNat 92, 'x', hexDigit (c.toNat / 16), hexDigit (c.toNat % 16)]
  else [c]

/-- Python `repr` of a string (the `{question!r}` conversion): single
quotes, unless the string contains a single quote and no double quote,
in which case double quotes. -/
def pyRepr (s : String) : String :=
  let l := s.toList
  let quote :=
    if l.contains (Char.ofNat 39) && !(l.contains (Char.ofNat 34)) then Char.ofNat 34
    else Char.ofNat 39
  (quote :: ((l.map (pyReprChar quote)).flatten ++ [quote])).asString

/-- The formatted error string built in the `except` branch of
`QAAgent.answer_question` (the leading mojibake `‚ùå` is the literal
byte sequence present in the source file). -/
def error_answer (question exc : String) : String :=
  "‚ùå Error generating answer. Question: " ++ pyRepr question ++ ". Exception: " ++ exc

/-- The completion post-processing on line 87 of qa_agent.py:
`text.split("Answer:")[-1].strip() if "Answer:" in text else text.strip()`. -/
def extract_answer (text : String) : String :=
  if containsSub ("Answer:".toList) text.toList then
    (pyStripL ((splitOnSub 'A' "nswer:".toList text.toList).getLastD [])).asString
  else pyStrip text

/-- `QAAgent.answer_question`.  `sim` is the external FAISS
`similarity_search` (opaque), `complete` the external chat-completion
API, returning either the completion text or the exception detail it
raised.  `vectorstore` is the agent state `self.vectorstore`; it is
`none` exactly when `load_all_indexes` returned `None`, in which case
the attribute access `self.vectorstore.similarity_search` raises an
uncaught `AttributeError`. -/
def answer_question (sim : Store → String → Nat → List String)
    (complete : String → Except String String)
    (vectorstore : Option Store) (question : String) :
    Except PyExc String × List Effect :=
  match vectorstore with
  | none =>
    (Except.error (PyExc.attributeError "NoneType object has no attribute similarity_search"),
     [])
  | some vs =>
    let docs := sim vs question Config.RETRIEVER_K
    let context := String.intercalate "\n\n" docs
    let prompt := build_prompt context question
    match complete prompt with
    | Except.ok text =>
      (Except.ok (extract_answer text), [Effect.vectorQuery, Effect.llmCall])
    | Except.error exc =>
      (Except.ok (error_answer question exc), [Effect.vectorQuery, Effect.llmCall])

end QAAgent

/-! ## Chatbot (application/chatbot.py) -/

namespace Chatbot

/-- `Chatbot._handle_question`, at the point where the QA agent has not
been constructed yet (`self.qa_agent is None`, the state every session
starts in).  Visualization intents are matched first on the lowercased
question; otherwise `QAAgent()` is constructed, catching only
`FileNotFoundError` and turning it into the fixed error answer, and the
question is answered through the agent. -/
def handle_question (sim : Store → String → Nat → List String)
    (complete : String → Except String String)
    (entries : List DirEntry) (question : String) :
    Except PyExc String × List Effect :=
  let q_lower := pyLower question
  if strContains q_lower "vehicles sold per year" then
    (Except.ok "📊 Generated graph: vehicles sold per year.", [Effect.vizVehiclesSoldPerYear])
  else if strContains q_lower "stock price" && strContains q_lower "cac40" then
    (Except.ok "📊 Compared Renault stock vs CAC40.", [Effect.vizStockVsIndex])
  else if strContains q_lower "correlation" && strContains q_lower "sales" &&
      strContains q_lower "stock" then
    (Except.ok "📊 Analyzed correlation between sales and stock.",
     [Effect.vizSalesStockCorrelation])
  else
    match QAAgent.load_all_indexes entries with
    | Except.error (PyExc.fileNotFoundError _) => (Except.ok "Error loading QA system.", [])
    | Except.error e => (Except.error e, [])
    | Except.ok store => QAAgent.answer_question sim complete store question

end Chatbot

/-! ## Announcement date table (src/utils/announcement_dates_extraction.py,
`merge_and_save_all_dates`) -/

namespace Announcements

/-- One row of the announcement-date table: `{"date": d, "source": s}`. -/
structure DateRecord where
  date : String
  source : String
deriving DecidableEq

instance : IsTotal DateRecord (fun a b => a.date ≤ b.date) :=
  ⟨fun a b => le_total a.date b.date⟩

instance : IsTrans DateRecord (fun a b => a.date ≤ b.date) :=
  ⟨fun _ _ _ hab hbc => le_trans hab hbc⟩

/-- `DataFrame.drop_duplicates()`: keep the first occurrence of every
full row, in order. -/
def drop_duplicates : List DateRecord → List DateRecord
  | [] => []
  | r :: t => r :: drop_duplicates (t.filter (fun x => decide (x ≠ r)))
termination_by l => l.length
decreasing_by
  have := List.length_filter_le (fun x => decide (x ≠ r)) t
  simp only [List.length_cons]
  omega

/-- `DataFrame.dropna(subset=["date"])`: the `date` column of every row
built by the extraction is a present string (never NaN), so no row is
dropped. -/
def dropna_date (l : List DateRecord) : List DateRecord := l

/-- `DataFrame.sort_values(by="date")`: sort rows by the `date` string
column ascending (pandas compares `str` values, i.e. code-point
lexicographic order).  The pandas default sort is not stable; the
claims proved below do not depend on tie order, so a structural
insertion sort stands in for it. -/
def sort_values_by_date (l : List DateRecord) : List DateRecord :=
  l.insertionSort (fun a b => a.date ≤ b.date)

/-- `merge_and_save_all_dates`, applied to the list of rows collected
from all processed files (file I/O elided): empty input short-circuits
to an empty table, otherwise dedup, dropna, sort by date, persist. -/
def merge_and_save_all_dates (all_dates : List DateRecord) : List DateRecord :=
  if all_dates.isEmpty then []
  else sort_values_by_date (dropna_date (drop_duplicates all_dates))

theorem mem_drop_duplicates {x : DateRecord} :
    ∀ {l : List DateRecord}, x ∈ drop_duplicates l → x ∈ l
  | [], h => by simpa [drop_duplicates] using h
  | r :: t, h => by
    rw [drop_duplicates] at h
    rcases List.mem_cons.1 h with h | h
    · exact h ▸ List.mem_cons_self _ _
    · exact List.mem_cons_of_mem _ (List.mem_of_mem_filter (mem_drop_duplicates h))
termination_by l => l.length
decreasing_by
  have := List.length_filter_le (fun x => decide (x ≠ r)) t
  simp only [List.length_cons]
  omega

theorem nodup_drop_duplicates :
    ∀ (l : List DateRecord), (drop_duplicates l).Nodup
  | [] => by simp [drop_duplicates]
  | r :: t => by
    rw [drop_duplicates]
    refine List.nodup_cons.2 ⟨?_, nodup_drop_duplicates _⟩
    intro hmem
    have := List.of_mem_filter (mem_drop_duplicates hmem)
    simp at this
termination_by l => l.length
decreasing_by
  have := List.length_filter_le (fun x => decide (x ≠ r)) t
  simp only [List.length_cons]
  omega

/-- C8: the persisted announcement-date table has no duplicate
(date, source) rows and is sorted ascending by date, for every
processing order of the collected rows. -/
theorem merged_dates_nodup_and_sorted (all_dates : List Announcements.DateRecord) :
    (Announcements.merge_and_save_all_dates all_dates).Nodup ∧
      (Announcements.merge_and_save_all_dates all_dates).Sorted
        (fun a b => a.date ≤ b.date) := by
  unfold Announcements.merge_and_save_all_dates
  split
  · simp
  · unfold Announcements.sort_values_by_date Announcements.dropna_date
    constructor
    · exact (List.perm_insertionSort (fun a b => a.date ≤ b.date)
        (Announcements.drop_duplicates all_dates)).symm.nodup
        (Announcements.nodup_drop_duplicates all_dates)
    · exact List.sorted_insertionSort (fun a b => a.date ≤ b.date)
        (Announcements.drop_duplicates all_dates)

end Announcements

/-! ## Substring helper lemmas -/

theorem containsSub_of_append (p l r : List Char) :
    containsSub p (l ++ (p ++ r)) = true := by
  induction l with
  | nil =>
    simp only [List.nil_append]
    cases p with
    | nil => cases r <;> simp [containsSub, List.isPrefixOf]
    | cons a q =>
      have hpre : (a :: q).isPrefixOf ((a :: q) ++ r) = true := by
        rw [List.isPrefixOf_iff_prefix]
        exact List.prefix_append _ _
      rw [List.cons_append] at hpre ⊢
      simp [containsSub, hpre]
  | cons c t ih =>
    simp only [List.cons_append, containsSub, List.append_eq, ih, Bool.or_true]

theorem strContains_of_toList_decomp (s mid : String) (l r : List Char)
    (h : s.toList = l ++ (mid.toList ++ r)) : strContains s mid = true := by
  rw [strContains, h]
  exact containsSub_of_append _ _ _

theorem flatten_map_of_singleton {f : Char → List Char} :
    ∀ {l : List Char}, (∀ c ∈ l, f c = [c]) → (l.map f).flatten = l := by
  intro l
  induction l with
  | nil => simp
  | cons c t ih =>
    intro h
    rw [List.map_cons, List.flatten_cons, h c (List.mem_cons_self _ _),
      List.singleton_append]
    exact congrArg (List.cons c) (ih fun x hx => h x (List.mem_cons_of_mem _ hx))

/-! ## Claim C2 -/

/-- C2: a question whose lowercased form contains "vehicles sold per
year" is routed to the sales-visualization collaborator: the handler
returns exactly the fixed confirmation string, the only external effect
is the visualization call, and neither a vector-store query nor a
language-model call occurs. -/
theorem vehicles_intent_bypasses_retrieval
    (sim : Store → String → Nat → List String) (complete : String → Except String String)
    (entries : List DirEntry) (question : String)
    (h : strContains (pyLower question) "vehicles sold per year" = true) :
    Chatbot.handle_question sim complete entries question =
      (Except.ok "📊 Generated graph: vehicles sold per year.",
       [Effect.vizVehiclesSoldPerYear]) ∧
    Effect.vectorQuery ∉ (Chatbot.handle_question sim complete entries question).2 ∧
    Effect.llmCall ∉ (Chatbot.handle_question sim complete entries question).2 := by
  have heq : Chatbot.handle_question sim complete entries question =
      (Except.ok "📊 Generated graph: vehicles sold per year.",
       [Effect.vizVehiclesSoldPerYear]) := by
    unfold Chatbot.handle_question
    simp [h]
  refine ⟨heq, ?_, ?_⟩ <;> rw [heq] <;> simp

/-- Witness for C2 at the concrete question from the spec. -/
theorem vehicles_intent_bypasses_retrieval_witness :
    strContains (pyLower "How many vehicles sold per year?") "vehicles sold per year" = true ∧
    Chatbot.handle_question (fun _ _ _ => []) (fun _ => Except.ok "") []
        "How many vehicles sold per year?" =
      (Except.ok "📊 Generated graph: vehicles sold per year.",
       [Effect.vizVehiclesSoldPerYear]) :=
  ⟨by decide,
   (vehicles_intent_bypasses_retrieval (fun _ _ _ => []) (fun _ => Except.ok "") []
     "How many vehicles sold per year?" (by decide)).1⟩

/-! ## Claim C3 -/

/-- C3 counterexample: with a single non-directory entry whose name
matches `index_faiss_*` (so zero persisted index directories exist, the
condition of the claim), the glob is nonempty, `load_all_indexes`
raises nothing and returns `None`, and answering a non-visualization
question crashes with an uncaught `AttributeError` instead of surfacing
an error message. -/
theorem stray_index_file_crashes :
    (Chatbot.handle_question (fun _ _ _ => []) (fun _ => Except.ok "")
        [⟨"index_faiss_stray", false, ⟨[]⟩⟩] "anything").1 =
      Except.error (PyExc.attributeError
        "NoneType object has no attribute similarity_search") := by
  decide

/-- C3 as amended: when zero entries (directories or files) match
`index_faiss_*` under the index directory, answering any question that
does not match a visualization intent surfaces the fixed error string
"Error loading QA system." (the `FileNotFoundError` is caught) rather
than an uncaught exception. -/
theorem no_corpus_yields_error_string
    (sim : Store → String → Nat → List String) (complete : String → Except String String)
    (entries : List DirEntry) (question : String)
    (h1 : strContains (pyLower question) "vehicles sold per year" = false)
    (h2 : (strContains (pyLower question) "stock price" &&
      strContains (pyLower question) "cac40") = false)
    (h3 : (strContains (pyLower question) "correlation" &&
      strContains (pyLower question) "sales" &&
      strContains (pyLower question) "stock") = false)
    (hg : entries.filter (fun e => "index_faiss_".toList.isPrefixOf e.name.toList) = []) :
    Chatbot.handle_question sim complete entries question =
      (Except.ok "Error loading QA system.", []) := by
  have hglob : QAAgent.globIndexFaiss entries = [] := by
    unfold QAAgent.globIndexFaiss
    rw [hg]
    rfl
  unfold Chatbot.handle_question QAAgent.load_all_indexes
  simp [h1, h2, h3, hglob]

/-- Witness for the amended C3 at a concrete empty index directory. -/
theorem no_corpus_yields_error_string_witness :
    strContains (pyLower "what was the revenue") "vehicles sold per year" = false ∧
    Chatbot.handle_question (fun _ _ _ => []) (fun _ => Except.ok "") []
        "what was the revenue" = (Except.ok "Error loading QA system.", []) :=
  ⟨by decide,
   no_corpus_yields_error_string (fun _ _ _ => []) (fun _ => Except.ok "") []
     "what was the revenue" (by decide) (by decide) (by decide) (by decide)⟩

/-! ## Claim C4 -/

/-- C4: when the completion API call raises, `answer_question` returns
(rather than raises) the formatted error string; that string contains
the exception detail, contains the `repr` of the question, and—when the
question needs no `repr` escaping—contains the question verbatim. -/
theorem completion_failure_returns_error_string
    (sim : Store → String → Nat → List String) (vs : Store) (question exc : String) :
    (QAAgent.answer_question sim (fun _ => Except.error exc) (some vs) question).1 =
      Except.ok (QAAgent.error_answer question exc) ∧
    strContains (QAAgent.error_answer question exc) exc = true ∧
    strContains (QAAgent.error_answer question exc) (QAAgent.pyRepr question) = true ∧
    ((∀ c ∈ question.toList, QAAgent.pyReprChar (Char.ofNat 39) c = [c]) →
      strContains (QAAgent.error_answer question exc) question = true) := by
  refine ⟨rfl, ?_, ?_, ?_⟩
  · exact strContains_of_toList_decomp _ _
      ("‚ùå Error generating answer. Question: ".toList ++
        (QAAgent.pyRepr question).toList ++ ". Exception: ".toList) []
      (by simp [QAAgent.error_answer, String.toList])
  · exact strContains_of_toList_decomp _ _
      "‚ùå Error generating answer. Question: ".toList
      (". Exception: ".toList ++ exc.toList)
      (by simp [QAAgent.error_answer, String.toList])
  · intro hplain
    have hnosq : question.toList.contains (Char.ofNat 39) = false := by
      cases hcs : question.toList.contains (Char.ofNat 39) with
      | false => rfl
      | true =>
        exfalso
        have hmem : Char.ofNat 39 ∈ question.toList := by
          simpa [List.contains] using hcs
        have := hplain _ hmem
        simp [QAAgent.pyReprChar] at this
    have hquote : QAAgent.pyRepr question =
        ((Char.ofNat 39) :: (question.toList ++ [Char.ofNat 39])).asString := by
      unfold QAAgent.pyRepr
      simp only [hnosq, Bool.false_and]
      rw [if_neg (by simp), flatten_map_of_singleton hplain]
    refine strContains_of_toList_decomp _ _
      ("‚ùå Error generating answer. Question: ".toList ++ [Char.ofNat 39])
      ([Char.ofNat 39] ++ ". Exception: ".toList ++ exc.toList) ?_
    rw [QAAgent.error_answer, hquote]
    simp [String.toList, List.asString]

/-! ## Claim C9 -/

instance : IsTotal DirEntry (fun a b => a.name ≤ b.name) :=
  ⟨fun a b => le_total a.name b.name⟩

instance : IsTrans DirEntry (fun a b => a.name ≤ b.name) :=
  ⟨fun _ _ _ hab hbc => le_trans hab hbc⟩

theorem sorted_perm_eq_of_nodup_names :
    ∀ (l1 l2 : List DirEntry), l1.Perm l2 →
      l1.Sorted (fun a b => a.name ≤ b.name) →
      l2.Sorted (fun a b => a.name ≤ b.name) →
      (l1.map DirEntry.name).Nodup → l1 = l2 := by
  intro l1
  induction l1 with
  | nil =>
    intro l2 hperm _ _ _
    exact (hperm.symm.eq_nil).symm
  | cons a t1 ih =>
    intro l2 hperm hs1 hs2 hnd
    cases l2 with
    | nil => exact absurd hperm.eq_nil (by simp)
    | cons b t2 =>
      have hbmem : b ∈ a :: t1 := hperm.mem_iff.2 (List.mem_cons_self b t2)
      have hamem : a ∈ b :: t2 := hperm.mem_iff.1 (List.mem_cons_self a t1)
      have hab : a.name ≤ b.name := by
        rcases List.mem_cons.1 hbmem with h | h
        · exact h ▸ le_refl _
        · exact List.rel_of_sorted_cons hs1 b h
      have hba : b.name ≤ a.name := by
        rcases List.mem_cons.1 hamem with h | h
        · exact h ▸ le_refl _
        · exact List.rel_of_sorted_cons hs2 a h
      have hname : a.name = b.name := le_antisymm hab hba
      have hae : a = b := by
        rcases List.mem_cons.1 hbmem with h | h
        · exact h.symm
        · exfalso
          have hmap : b.name ∈ t1.map DirEntry.name := List.mem_map_of_mem _ h
          rw [← hname] at hmap
          exact (List.nodup_cons.1 (by simpa using hnd)).1 hmap
      subst hae
      have htail : t1.Perm t2 := hperm.cons_inv
      have := ih t2 htail hs1.of_cons hs2.of_cons
        (List.nodup_cons.1 (by simpa using hnd)).2
      rw [this]

/-- C9: `load_all_indexes` visits the matching `index_faiss_*` entries
in sorted name order and skips non-directories, so any two directory
listings of the same on-disk entry set (any permutation, with filesystem
names distinct) produce the identical merged store. -/
theorem load_all_indexes_deterministic (l1 l2 : List DirEntry)
    (hperm : l1.Perm l2) (hnodup : (l1.map DirEntry.name).Nodup) :
    QAAgent.load_all_indexes l1 = QAAgent.load_all_indexes l2 := by
  have hfilter := hperm.filter (fun e => "index_faiss_".toList.isPrefixOf e.name.toList)
  have hnd1 : ((l1.filter
      (fun e => "index_faiss_".toList.isPrefixOf e.name.toList)).map DirEntry.name).Nodup :=
    List.Sublist.nodup (List.Sublist.map DirEntry.name (List.filter_sublist l1)) hnodup
  have hglob : QAAgent.globIndexFaiss l1 = QAAgent.globIndexFaiss l2 := by
    apply sorted_perm_eq_of_nodup_names
    · exact ((List.perm_insertionSort _ _).trans hfilter).trans
        (List.perm_insertionSort _ _).symm
    · exact List.sorted_insertionSort _ _
    · exact List.sorted_insertionSort _ _
    · exact (((List.perm_insertionSort (fun a b => a.name ≤ b.name) _).map
        DirEntry.name).symm).nodup hnd1
  unfold QAAgent.load_all_indexes
  rw [hglob]

/-- Witness for C9: two listing orders of the same two index
directories load to the identical merged store. -/
theorem load_all_indexes_deterministic_witness :
    ([(⟨"index_faiss_b", true, ⟨["doc b"]⟩⟩ : DirEntry),
      ⟨"index_faiss_a", true, ⟨["doc a"]⟩⟩].Perm
      [⟨"index_faiss_a", true, ⟨["doc a"]⟩⟩, ⟨"index_faiss_b", true, ⟨["doc b"]⟩⟩]) ∧
    QAAgent.load_all_indexes
        [⟨"index_faiss_b", true, ⟨["doc b"]⟩⟩, ⟨"index_faiss_a", true, ⟨["doc a"]⟩⟩] =
      QAAgent.load_all_indexes
        [⟨"index_faiss_a", true, ⟨["doc a"]⟩⟩, ⟨"index_faiss_b", true, ⟨["doc b"]⟩⟩] :=
  ⟨by decide,
   load_all_indexes_deterministic _ _ (by decide) (by decide)⟩

/-- Witness for C4 at a concrete question and exception. -/
theorem completion_failure_returns_error_string_witness :
    (QAAgent.answer_question (fun _ _ _ => []) (fun _ => Except.error "timeout")
        (some ⟨[]⟩) "what was the revenue").1 =
      Except.ok (QAAgent.error_answer "what was the revenue" "timeout") ∧
    strContains (QAAgent.error_answer "what was the revenue" "timeout")
      "what was the revenue" = true :=
  ⟨(completion_failure_returns_error_string (fun _ _ _ => []) ⟨[]⟩
      "what was the revenue" "timeout").1,
   (completion_failure_returns_error_string (fun _ _ _ => []) ⟨[]⟩
      "what was the revenue" "timeout").2.2.2 (by decide)⟩

/-! ## Announcement date extraction
(src/utils/announcement_dates_extraction.py, `extract_financial_announcements`)

The two regular expressions of `AnnouncementPatternConfig` are embedded
as direct scanning matchers.  Both patterns are backtracking-free in
the relevant sense: every `\s+` is followed by a character class
disjoint from whitespace (a digit or a letter), so the greedy maximal
whitespace run is the unique viable choice, and `\d{1,2}` followed by
`\s+` can take two digits only when no third digit follows.  `\d` is
modelled as the ASCII digits and `IGNORECASE` as ASCII case folding
(Python also accepts non-ASCII decimal digits and folds accented
letters; none of the claims depend on those inputs). -/

namespace Announcements

/-- Case-insensitive character comparison (ASCII folding), as used by
`re.IGNORECASE` matching of literal pattern characters. -/
def charLowEq (a b : Char) : Bool := a.toLower == b.toLower

/-- Match a literal pattern (case-insensitively) at the head of the
input, returning the remainder. -/
def matchLit : List Char → List Char → Option (List Char)
  | [], l => some l
  | _ :: _, [] => none
  | x :: xs, c :: t => if charLowEq x c then matchLit xs t else none

/-- Match `\s+` at the head of the input: at least one whitespace
character, maximally (the following pattern element is never
whitespace, so the maximal run is the regex result). -/
def matchWs1 : List Char → Option (List Char)
  | [] => none
  | c :: t => if isPyWs c then some (t.dropWhile isPyWs) else none

/-- Python `\w` (Unicode word character), restricted to ASCII
alphanumerics, underscore, and the accented letters occurring in French
text. -/
def isWordChar (c : Char) : Bool :=
  c.isAlphanum || c == '_' ||
    ("àâäçéèêëîïôöùûüÀÂÄÇÉÈÊËÎÏÔÖÙÛÜ".toList.contains c)

/-- `AGENDA_PATTERN`: match
`Agenda\s+(\d{4})\s+des annonces financières` (IGNORECASE) at the head
of the input; return the year capture and the remainder after the match
end. -/
def matchAgendaAt (l : List Char) : Option (List Char × List Char) :=
  match matchLit "Agenda".toList l with
  | none => none
  | some r1 =>
    match matchWs1 r1 with
    | none => none
    | some r2 =>
      match r2 with
      | d1 :: d2 :: d3 :: d4 :: r3 =>
        if d1.isDigit && d2.isDigit && d3.isDigit && d4.isDigit then
          match matchWs1 r3 with
          | none => none
          | some r4 =>
            match matchLit "des annonces financières".toList r4 with
            | none => none
            | some r5 => some ([d1, d2, d3, d4], r5)
        else none
      | _ => none

/-- `re.finditer(AGENDA_PATTERN, text, re.IGNORECASE)`: scan left to
right, collecting non-overlapping matches as (year capture, remainder
after the match end); after a match, scanning resumes at the match end.
Fuel-driven so the definition stays structurally recursive; the wrapper
passes `l.length`, which is sufficient fuel because every step consumes
at least one character. -/
def agendaFindIterF : Nat → List Char → List (List Char × List Char)
  | 0, _ => []
  | fuel + 1, l =>
    match l with
    | [] => []
    | c :: t =>
      match matchAgendaAt (c :: t) with
      | some (year, rest) => (year, rest) :: agendaFindIterF fuel rest
      | none => agendaFindIterF fuel t

/-- All anchor matches of `AGENDA_PATTERN` in the text. -/
def agendaFindIter (l : List Char) : List (List Char × List Char) :=
  agendaFindIterF l.length l

/-- The month-name alternation of `FRENCH_DATE_PATTERN`, in pattern
order. -/
def monthNames : List (List Char) :=
  ["janvier".toList, "février".toList, "mars".toList, "avril".toList,
   "mai".toList, "juin".toList, "juillet".toList, "août".toList,
   "septembre".toList, "octobre".toList, "novembre".toList, "décembre".toList]

/-- Match the month alternation (IGNORECASE) at the head of the input:
first alternative that matches wins; returns the matched input text
(case preserved, as a regex capture group does) and the remainder. -/
def matchMonthAt (l : List Char) : Option (List Char × List Char) :=
  (monthNames.filterMap (fun m =>
    match matchLit m l with
    | some r => some (l.take m.length, r)
    | none => none)).head?

/-- The tail of `FRENCH_DATE_PATTERN` after the day digits:
`\s+(month...)\b`.  Returns ((day digits, matched month), remainder). -/
def dateTail (digits : List Char) (r : List Char) :
    Option ((List Char × List Char) × List Char) :=
  match matchWs1 r with
  | none => none
  | some r2 =>
    match matchMonthAt r2 with
    | none => none
    | some (monthTxt, r3) =>
      match r3 with
      | [] => some ((digits, monthTxt), [])
      | c :: _ => if isWordChar c then none else some ((digits, monthTxt), r3)

/-- `FRENCH_DATE_PATTERN` at the head of the input (the leading `\b` is
checked by the scanner): `(\d{1,2})\s+(month...)\b`.  Greedy `\d{1,2}`:
two digits when the second character is a digit (a following third
digit then fails at `\s+`, with no viable backtracking, which the
definition mirrors), else one. -/
def matchDateAt (l : List Char) : Option ((List Char × List Char) × List Char) :=
  match l with
  | [] => none
  | d1 :: t1 =>
    if d1.isDigit then
      match t1 with
      | [] => none
      | d2 :: t2 => if d2.isDigit then dateTail [d1, d2] t2 else dateTail [d1] t1
    else none

/-- `re.findall(FRENCH_DATE_PATTERN, block, re.IGNORECASE)`: scan with
a word-boundary check (`\b` holds where the previous character is not a
word character; after a match the previous character is the final month
letter, a word character).  Fuel-driven as `agendaFindIterF`. -/
def dateFindAllF : Nat → Bool → List Char → List (List Char × List Char)
  | 0, _, _ => []
  | fuel + 1, prevIsWord, l =>
    match l with
    | [] => []
    | c :: t =>
      match (if prevIsWord then none else matchDateAt (c :: t)) with
      | some (pair, rest) => pair :: dateFindAllF fuel true rest
      | none => dateFindAllF fuel (isWordChar c) t

/-- All (day, month) captures of `FRENCH_DATE_PATTERN` in a block
(position 0 is a word boundary). -/
def dateFindAll (l : List Char) : List (List Char × List Char) :=
  dateFindAllF l.length false l

/-- `AnnouncementPatternConfig.FRENCH_MONTHS`: lowercase month name to
two-digit month number. -/
def FRENCH_MONTHS : List (List Char × List Char) :=
  [("janvier".toList, "01".toList), ("février".toList, "02".toList),
   ("mars".toList, "03".toList), ("avril".toList, "04".toList),
   ("mai".toList, "05".toList), ("juin".toList, "06".toList),
   ("juillet".toList, "07".toList), ("août".toList, "08".toList),
   ("septembre".toList, "09".toList), ("octobre".toList, "10".toList),
   ("novembre".toList, "11".toList), ("décembre".toList, "12".toList)]

/-- Python `day.zfill(2)` for the 1-2 digit day capture. -/
def zfill2 (digits : List Char) : List Char :=
  if digits.length ≥ 2 then digits else '0' :: digits

/-- `extract_financial_announcements`: for each anchor match (year,
window start), take the 300-character window, find all day+month
captures in it, zero-pad the day, map the lowercased month name through
`FRENCH_MONTHS`, and build `f"{year}-{mois_num}-{jour}"`. -/
def extract_financial_announcements (text : String) : List String :=
  ((agendaFindIter text.toList).map (fun ym =>
    (dateFindAll (ym.2.take 300)).filterMap (fun dm =>
      let jour := zfill2 dm.1
      let mois := dm.2.map Char.toLower
      match FRENCH_MONTHS.lookup mois with
      | some mois_num => some ((ym.1 ++ ('-' :: mois_num) ++ ('-' :: jour)).asString)
      | none => none))).flatten

/-- A valid ISO-8601 calendar date `YYYY-MM-DD`: month 01..12 and a day
that exists in that month (Gregorian leap rule for February). -/
def isValidISODate (s : String) : Bool :=
  match s.toList with
  | [y1, y2, y3, y4, h1, m1, m2, h2, d1, d2] =>
    y1.isDigit && y2.isDigit && y3.isDigit && y4.isDigit &&
    h1 == '-' && h2 == '-' && m1.isDigit && m2.isDigit && d1.isDigit && d2.isDigit &&
    (let y := ((y1.toNat - 48) * 1000 + (y2.toNat - 48) * 100 +
               (y3.toNat - 48) * 10 + (y4.toNat - 48))
     let m := (m1.toNat - 48) * 10 + (m2.toNat - 48)
     let d := (d1.toNat - 48) * 10 + (d2.toNat - 48)
     let leap := (y % 4 == 0 && y % 100 != 0) || y % 400 == 0
     let dim := if m == 2 then (if leap then 29 else 28)
                else if m == 4 || m == 6 || m == 9 || m == 11 then 30
                else 31
     1 ≤ m && m ≤ 12 && 1 ≤ d && d ≤ dim)
  | _ => false

end Announcements

/-! ## Claims C5 and C6 -/

/-- C5: a text with the anchor phrase "Agenda 2023 des annonces
financières" followed in the scan window by "25 janvier" yields exactly
["2023-01-25"]; and any text in which the anchor pattern finds no match
yields the empty sequence. -/
theorem extract_dates_anchor_behaviour :
    Announcements.extract_financial_announcements
        "Agenda 2023 des annonces financières : 25 janvier 2023." = ["2023-01-25"] ∧
    (∀ t : String, Announcements.agendaFindIter t.toList = [] →
      Announcements.extract_financial_announcements t = []) := by
  constructor
  · decide
  · intro t h
    unfold Announcements.extract_financial_announcements
    rw [h]
    rfl

/-- Witness for C5 at a text without the anchor phrase. -/
theorem extract_dates_anchor_behaviour_witness :
    Announcements.agendaFindIter ("calendrier: 25 janvier".toList) = [] ∧
    Announcements.extract_financial_announcements "calendrier: 25 janvier" = [] :=
  ⟨by decide, extract_dates_anchor_behaviour.2 "calendrier: 25 janvier" (by decide)⟩

/-- C6 counterexample: the text "Agenda 2023 des annonces financières
31 février 2023" extracts the string "2023-02-31", which is not a valid
calendar date (February has at most 29 days). -/
theorem extract_dates_invalid_calendar_date :
    Announcements.extract_financial_announcements
        "Agenda 2023 des annonces financières 31 février 2023" = ["2023-02-31"] ∧
    Announcements.isValidISODate "2023-02-31" = false :=
  ⟨by decide, by decide⟩

theorem matchAgendaAt_year {l year rest : List Char}
    (h : Announcements.matchAgendaAt l = some (year, rest)) :
    year.length = 4 ∧ year.all Char.isDigit = true := by
  unfold Announcements.matchAgendaAt at h
  cases h1 : Announcements.matchLit "Agenda".toList l with
  | none => simp only [h1] at h; exact absurd h (by simp)
  | some r1 =>
  simp only [h1] at h
  cases h2 : Announcements.matchWs1 r1 with
  | none => simp only [h2] at h; exact absurd h (by simp)
  | some r2 =>
  simp only [h2] at h
  match r2, h with
  | [], h => exact absurd h (by simp)
  | [d1], h => exact absurd h (by simp)
  | [d1, d2], h => exact absurd h (by simp)
  | [d1, d2, d3], h => exact absurd h (by simp)
  | d1 :: d2 :: d3 :: d4 :: r3, h => ?_
  cases hdig : (d1.isDigit && d2.isDigit && d3.isDigit && d4.isDigit) with
  | false => simp only [hdig, Bool.false_eq_true, if_false] at h; exact absurd h (by simp)
  | true =>
  simp only [hdig, if_true] at h
  cases h3 : Announcements.matchWs1 r3 with
  | none => simp only [h3] at h; exact absurd h (by simp)
  | some r4 =>
  simp only [h3] at h
  cases h4 : Announcements.matchLit "des annonces financières".toList r4 with
  | none => simp only [h4] at h; exact absurd h (by simp)
  | some r5 =>
  simp only [h4, Option.some.injEq, Prod.mk.injEq] at h
  obtain ⟨hy, -⟩ := h
  subst hy
  simp only [Bool.and_eq_true] at hdig
  simp [List.all, hdig.1.1.1, hdig.1.1.2, hdig.1.2, hdig.2]

theorem agendaFindIterF_mem :
    ∀ (fuel : Nat) (l : List Char) (pr : List Char × List Char),
      pr ∈ Announcements.agendaFindIterF fuel l →
      ∃ l0, Announcements.matchAgendaAt l0 = some pr := by
  intro fuel
  induction fuel with
  | zero => intro l pr h; simp [Announcements.agendaFindIterF] at h
  | succ n ih =>
    intro l pr h
    cases l with
    | nil => simp [Announcements.agendaFindIterF] at h
    | cons c t =>
      rw [Announcements.agendaFindIterF] at h
      revert h
      split
      · next year rest heq =>
        intro h
        rcases List.mem_cons.1 h with h | h
        · exact ⟨c :: t, by rw [heq, h]⟩
        · exact ih _ _ h
      · exact fun h => ih _ _ h

theorem dateTail_shape {digits r day month rest : List Char}
    (h : Announcements.dateTail digits r = some ((day, month), rest)) :
    day = digits := by
  unfold Announcements.dateTail at h
  cases h1 : Announcements.matchWs1 r with
  | none => simp only [h1] at h; exact absurd h (by simp)
  | some r2 =>
  simp only [h1] at h
  cases h2 : Announcements.matchMonthAt r2 with
  | none => simp only [h2] at h; exact absurd h (by simp)
  | some pr =>
  obtain ⟨monthTxt, r3⟩ := pr
  simp only [h2] at h
  cases r3 with
  | nil =>
    simp only [Option.some.injEq, Prod.mk.injEq] at h
    exact h.1.1.symm
  | cons c tl =>
    cases hw : Announcements.isWordChar c with
    | true => simp only [hw, if_true] at h; exact absurd h (by simp)
    | false =>
      simp only [hw, Bool.false_eq_true, if_false, Option.some.injEq, Prod.mk.injEq] at h
      exact h.1.1.symm

theorem matchDateAt_shape {l day month rest : List Char}
    (h : Announcements.matchDateAt l = some ((day, month), rest)) :
    (day.length = 1 ∨ day.length = 2) ∧ day.all Char.isDigit = true := by
  unfold Announcements.matchDateAt at h
  cases l with
  | nil => exact absurd h (by simp)
  | cons d1 t1 =>
  cases hd1 : d1.isDigit with
  | false => simp only [hd1, Bool.false_eq_true, if_false] at h; exact absurd h (by simp)
  | true =>
  simp only [hd1, if_true] at h
  cases t1 with
  | nil => exact absurd h (by simp)
  | cons d2 t2 =>
  cases hd2 : d2.isDigit with
  | false =>
    simp only [hd2, Bool.false_eq_true, if_false] at h
    rw [dateTail_shape h]
    exact ⟨Or.inl rfl, by simp [List.all, hd1]⟩
  | true =>
    simp only [hd2, if_true] at h
    rw [dateTail_shape h]
    exact ⟨Or.inr rfl, by simp [List.all, hd1, hd2]⟩

theorem dateFindAllF_mem :
    ∀ (fuel : Nat) (prev : Bool) (l : List Char) (pr : List Char × List Char),
      pr ∈ Announcements.dateFindAllF fuel prev l →
      ∃ l0 rest, Announcements.matchDateAt l0 = some (pr, rest) := by
  intro fuel
  induction fuel with
  | zero => intro prev l pr h; simp [Announcements.dateFindAllF] at h
  | succ n ih =>
    intro prev l pr h
    cases l with
    | nil => simp [Announcements.dateFindAllF] at h
    | cons c t =>
      rw [Announcements.dateFindAllF] at h
      revert h
      split
      · next pair rest heq =>
        intro h
        rcases List.mem_cons.1 h with h | h
        · refine ⟨c :: t, rest, ?_⟩
          revert heq
          split
          · intro he; exact absurd he (by simp)
          · intro he; rw [he, h]
        · exact ih _ _ _ h
      · exact fun h => ih _ _ _ h

theorem zfill2_shape {digits : List Char}
    (h1 : digits.length = 1 ∨ digits.length = 2)
    (h2 : digits.all Char.isDigit = true) :
    (Announcements.zfill2 digits).length = 2 ∧
      (Announcements.zfill2 digits).all Char.isDigit = true := by
  rcases h1 with h1 | h1 <;> unfold Announcements.zfill2
  · rw [if_neg (by omega)]
    constructor
    · simp [h1]
    · simp only [List.all_cons, h2, Bool.and_true]
      decide
  · rw [if_pos (by omega)]
    exact ⟨h1, h2⟩

theorem lookup_mem_snd {k v : List Char} :
    ∀ {al : List (List Char × List Char)}, al.lookup k = some v →
      v ∈ al.map Prod.snd := by
  intro al
  induction al with
  | nil => intro h; simp [List.lookup] at h
  | cons kv t ih =>
    intro h
    rw [List.lookup] at h
    revert h
    split
    · intro h
      simp only [Option.some.injEq] at h
      rw [← h]
      exact List.mem_cons_self _ _
    · intro h
      exact List.mem_cons_of_mem _ (ih h)

/-- C6 as amended: every string returned by
`extract_financial_announcements` has the shape `YYYY-MM-DD` where
`YYYY` is the 4-digit captured year, `MM` is one of the twelve month
numbers of `FRENCH_MONTHS` (01..12), and `DD` is a 2-digit zero-padded
string copied from the day capture; the day is not validated against
the calendar, so month/day combinations that denote no real date (such
as 02-31, or day 00) can be produced. -/
theorem extract_dates_shape (t : String) :
    ∀ s ∈ Announcements.extract_financial_announcements t,
      ∃ y m d, s.toList = y ++ '-' :: (m ++ '-' :: d) ∧
        y.length = 4 ∧ y.all Char.isDigit = true ∧
        m ∈ Announcements.FRENCH_MONTHS.map Prod.snd ∧
        d.length = 2 ∧ d.all Char.isDigit = true := by
  intro s hs
  unfold Announcements.extract_financial_announcements at hs
  rw [List.mem_flatten] at hs
  obtain ⟨inner, hinner, hsin⟩ := hs
  rw [List.mem_map] at hinner
  obtain ⟨ym, hym, rfl⟩ := hinner
  rw [List.mem_filterMap] at hsin
  obtain ⟨dm, hdm, hmk⟩ := hsin
  obtain ⟨l0, hmA⟩ := agendaFindIterF_mem _ _ _ hym
  have hyear := matchAgendaAt_year (l := l0) (by rw [hmA])
  obtain ⟨l1, rest1, hmD⟩ := dateFindAllF_mem _ _ _ _ hdm
  have hday := matchDateAt_shape (l := l1) (by rw [hmD])
  revert hmk
  cases hlk : Announcements.FRENCH_MONTHS.lookup (dm.2.map Char.toLower) with
  | none =>
    intro hmk
    simp only [hlk] at hmk
    exact absurd hmk (by simp)
  | some mois =>
    intro hmk
    simp only [hlk, Option.some.injEq] at hmk
    refine ⟨ym.1, mois, Announcements.zfill2 dm.1, ?_, hyear.1, hyear.2,
      lookup_mem_snd hlk, (zfill2_shape hday.1 hday.2).1, (zfill2_shape hday.1 hday.2).2⟩
    rw [← hmk]
    simp [String.toList, List.asString]

/-- Witness for the amended C6 at a concrete extracted string. -/
theorem extract_dates_shape_witness :
    ("2023-02-31" ∈ Announcements.extract_financial_announcements
        "Agenda 2023 des annonces financières 31 février 2023") ∧
    (∃ y m d, ("2023-02-31" : String).toList = y ++ '-' :: (m ++ '-' :: d) ∧
      y.length = 4 ∧ y.all Char.isDigit = true ∧
      m ∈ Announcements.FRENCH_MONTHS.map Prod.snd ∧
      d.length = 2 ∧ d.all Char.isDigit = true) :=
  ⟨by decide,
   extract_dates_shape "Agenda 2023 des annonces financières 31 février 2023"
     "2023-02-31" (by decide)⟩

/-! ## Claim C7: split/trailing-marker machinery -/

theorem breakOnSub_none_iff {a : Char} {p : List Char} :
    ∀ {l : List Char}, breakOnSub a p l = none ↔ containsSub (a :: p) l = false := by
  intro l
  induction l with
  | nil => simp [breakOnSub, containsSub, List.isEmpty]
  | cons c t ih =>
    simp only [breakOnSub, containsSub]
    split
    · next hpre =>
      simp [hpre]
    · next hpre =>
      rw [Bool.or_eq_false_iff]
      constructor
      · intro h
        refine ⟨Bool.eq_false_iff.2 hpre, ?_⟩
        rw [← ih]
        revert h
        cases breakOnSub a p t with
        | none => intro _; rfl
        | some pr => intro h; exact absurd h (by simp)
      · intro ⟨_, h⟩
        rw [← ih] at h
        rw [h]

theorem breakOnSub_some_decomp {a : Char} {p : List Char} :
    ∀ {l pre rest : List Char}, breakOnSub a p l = some (pre, rest) →
      l = pre ++ (a :: p) ++ rest := by
  intro l
  induction l with
  | nil => intro pre rest h; simp [breakOnSub] at h
  | cons c t ih =>
    intro pre rest h
    simp only [breakOnSub] at h
    split at h
    · next hpre =>
      simp only [Option.some.injEq, Prod.mk.injEq] at h
      obtain ⟨hpre0, hrest⟩ := h
      obtain ⟨s, hs⟩ := List.isPrefixOf_iff_prefix.1 hpre
      obtain ⟨rfl, rfl⟩ : c = a ∧ t = p ++ s := by
        rw [List.cons_append] at hs
        exact ⟨(List.cons.injEq _ _ _ _ ▸ hs).1.symm ▸ rfl, by
          injection hs with h1 h2; exact h2.symm⟩
      subst hpre0
      rw [← hrest, List.drop_left]
      simp
    · revert h
      split
      · next pre0 rest0 heq =>
        intro h
        simp only [Option.some.injEq, Prod.mk.injEq] at h
        obtain ⟨hpre, hrest⟩ := h
        subst hpre
        subst hrest
        rw [ih heq]
        simp
      · intro h; exact absurd h (by simp)

theorem splitOnSub_eq_none {a : Char} {p l : List Char}
    (h : breakOnSub a p l = none) : splitOnSub a p l = [l] := by
  unfold splitOnSub
  split
  · rfl
  · next pre rest heq => rw [h] at heq; exact absurd heq (by simp)

theorem splitOnSub_eq_some {a : Char} {p l pre rest : List Char}
    (h : breakOnSub a p l = some (pre, rest)) :
    splitOnSub a p l = pre :: splitOnSub a p rest := by
  conv_lhs => unfold splitOnSub
  split
  · next heq => rw [heq] at h; exact absurd h (by simp)
  · next pre0 rest0 heq =>
    rw [heq] at h
    simp only [Option.some.injEq, Prod.mk.injEq] at h
    rw [h.1, h.2]

theorem splitOnSub_ne_nil (a : Char) (p l : List Char) : splitOnSub a p l ≠ [] := by
  unfold splitOnSub
  split <;> simp

theorem getLastD_irrel {α : Type} {l : List α} (h : l ≠ []) (d1 d2 : α) :
    l.getLastD d1 = l.getLastD d2 := by
  cases l with
  | nil => exact absurd rfl h
  | cons x xs => simp only [List.getLastD_cons]

theorem splitOnSub_getLastD_decomp (a : Char) (p : List Char) (l : List Char)
    (hcont : containsSub (a :: p) l = true) :
    ∃ pre b, l = pre ++ (a :: p) ++ b ∧ containsSub (a :: p) b = false ∧
      (splitOnSub a p l).getLastD [] = b := by
  obtain ⟨pre0, rest0, hb⟩ : ∃ pre rest, breakOnSub a p l = some (pre, rest) := by
    cases hbk : breakOnSub a p l with
    | none =>
      rw [breakOnSub_none_iff, hcont] at hbk
      exact absurd hbk (by simp)
    | some pr =>
      obtain ⟨p1, p2⟩ := pr
      exact ⟨p1, p2, rfl⟩
  have hdecomp := breakOnSub_some_decomp hb
  rw [splitOnSub_eq_some hb]
  cases hcr : containsSub (a :: p) rest0 with
  | false =>
    have hrest : breakOnSub a p rest0 = none := breakOnSub_none_iff.2 hcr
    rw [splitOnSub_eq_none hrest]
    exact ⟨pre0, rest0, hdecomp, hcr, by simp [List.getLastD_cons]⟩
  | true =>
    obtain ⟨pre1, b, hd1, hf1, hl1⟩ := splitOnSub_getLastD_decomp a p rest0 hcr
    refine ⟨pre0 ++ (a :: p) ++ pre1, b, ?_, hf1, ?_⟩
    · rw [hdecomp, hd1]
      simp
    · rw [List.getLastD_cons]
      rw [getLastD_irrel (splitOnSub_ne_nil a p rest0) pre0 []]
      exact hl1
termination_by l.length
decreasing_by exact breakOnSub_rest_length hb

/-- C7 counterexample: for the completion text "The answer is 42 "
(no "Answer:" marker), `answer_question` returns the stripped text
"The answer is 42", not the full completion text as the claim states. -/
theorem completion_not_full_text :
    (QAAgent.answer_question (fun _ _ _ => []) (fun _ => Except.ok "The answer is 42 ")
        (some ⟨[]⟩) "q").1 = Except.ok "The answer is 42" ∧
    ("The answer is 42" : String) ≠ "The answer is 42 " := by
  constructor
  · decide
  · decide

/-- C7 as amended: on API success `answer_question` returns the
completion text post-processed as follows, with leading and trailing
whitespace stripped in both cases: when "Answer:" occurs in the text,
the (stripped) segment after its final occurrence; otherwise the
(stripped) full text. -/
theorem completion_postprocessing
    (sim : Store → String → Nat → List String) (vs : Store) (question text : String) :
    (QAAgent.answer_question sim (fun _ => Except.ok text) (some vs) question).1 =
      Except.ok (QAAgent.extract_answer text) ∧
    (containsSub "Answer:".toList text.toList = false →
      QAAgent.extract_answer text = pyStrip text) ∧
    (containsSub "Answer:".toList text.toList = true →
      ∃ pre b, text.toList = pre ++ "Answer:".toList ++ b ∧
        containsSub "Answer:".toList b = false ∧
        QAAgent.extract_answer text = (pyStripL b).asString) := by
  have hmarker : "Answer:".toList = 'A' :: "nswer:".toList := rfl
  refine ⟨rfl, ?_, ?_⟩
  · intro h
    unfold QAAgent.extract_answer
    rw [if_neg (by rw [h]; simp)]
  · intro h
    rw [hmarker] at h
    obtain ⟨pre, b, hd, hf, hl⟩ := splitOnSub_getLastD_decomp 'A' "nswer:".toList _ h
    refine ⟨pre, b, by rw [hmarker]; exact hd, by rw [hmarker]; exact hf, ?_⟩
    unfold QAAgent.extract_answer
    rw [if_pos (by rw [hmarker]; rw [h])]
    rw [hl]

/-- Witness for the amended C7 at a completion containing the marker. -/
theorem completion_postprocessing_witness :
    containsSub "Answer:".toList ("Some context.\n\nAnswer: 42 ".toList) = true ∧
    (∃ pre b, "Some context.\n\nAnswer: 42 ".toList = pre ++ "Answer:".toList ++ b ∧
      containsSub "Answer:".toList b = false ∧
      QAAgent.extract_answer "Some context.\n\nAnswer: 42 " = (pyStripL b).asString) :=
  ⟨by decide,
   (completion_postprocessing (fun _ _ _ => []) ⟨[]⟩ "q" "Some context.\n\nAnswer: 42 ").2.2
     (by decide)⟩

/-! ## OCR text cleaning (src/utils/ocr_content_extraction.py, `clean_ocr_text`)

The function applies, in order:
1. `re.sub(r"[ \t]+", " ", text)` — collapse space/tab runs to one space;
2. `re.sub(r"\n\s*\n+", "\n", text)` — collapse a newline followed by a
   whitespace run containing at least one further newline down to a
   single newline (the greedy match extends through the last newline of
   the run, which `chomp` computes);
3. strip every line of `text.splitlines()`, drop empty lines, rejoin
   with `"\n"`;
4. `text.strip()`. -/

namespace Ocr

/-- The regex class `[ \t]`. -/
def isSpaceTab (c : Char) : Bool := c == ' ' || c == '\t'

/-- Step 1, `re.sub(r"[ \t]+", " ", text)`: each maximal run of spaces
and tabs becomes a single space. -/
def sub_space_runs : List Char → List Char
  | [] => []
  | c :: t =>
    if isSpaceTab c then ' ' :: sub_space_runs (t.dropWhile isSpaceTab)
    else c :: sub_space_runs t
termination_by l => l.length
decreasing_by
  · have := (List.dropWhile_suffix (l := t) isSpaceTab).length_le
    simp only [List.length_cons]
    omega
  · simp only [List.length_cons]
    omega

/-- For step 2: given the text following a `\n`, the suffix after the
last `\n` inside the maximal leading whitespace run, when that run
contains at least one `\n` (so that `\n\s*\n+` matches); `none`
otherwise. -/
def chomp : List Char → Option (List Char)
  | [] => none
  | c :: t =>
    if isPyWs c then
      match chomp t with
      | some r => some r
      | none => if c = '\n' then some t else none
    else none

theorem chomp_suffix : ∀ {t r : List Char}, chomp t = some r → r <:+ t := by
  intro t
  induction t with
  | nil => intro r h; simp [chomp] at h
  | cons c t ih =>
    intro r h
    unfold chomp at h
    by_cases hws : isPyWs c = true
    · rw [if_pos hws] at h
      revert h
      cases hc : chomp t with
      | some r0 =>
        intro h
        simp only [Option.some.injEq] at h
        subst h
        exact (ih hc).trans (List.suffix_cons c t)
      | none =>
        intro h
        by_cases hnl : c = '\n'
        · rw [if_pos hnl] at h
          simp only [Option.some.injEq] at h
          subst h
          exact List.suffix_cons c t
        · rw [if_neg hnl] at h
          exact absurd h (by simp)
    · rw [if_neg hws] at h
      exact absurd h (by simp)

/-- Step 2, `re.sub(r"\n\s*\n+", "\n", text)`. -/
def sub_blank_lines : List Char → List Char
  | [] => []
  | c :: t =>
    if c = '\n' then
      match h : chomp t with
      | some r => '\n' :: sub_blank_lines r
      | none => '\n' :: sub_blank_lines t
    else c :: sub_blank_lines t
termination_by l => l.length
decreasing_by
  · have := (chomp_suffix h).length_le
    simp only [List.length_cons]
    omega
  · simp only [List.length_cons]
    omega
  · simp only [List.length_cons]
    omega

/-- One step of `str.splitlines`: the leading line (up to the first
line-boundary character) and, when a boundary was found, the remainder
after it (`\r\n` consumed as one boundary). -/
def breakLine : List Char → List Char × Option (List Char)
  | [] => ([], none)
  | c :: t =>
    if isLineTerm c then
      if c = '\r' then
        match t with
        | '\n' :: t2 => ([], some t2)
        | _ => ([], some t)
      else ([], some t)
    else
      let p := breakLine t
      (c :: p.1, p.2)

theorem breakLine_some_length :
    ∀ {l line rest : List Char}, breakLine l = (line, some rest) →
      rest.length < l.length := by
  intro l
  induction l with
  | nil => intro line rest h; simp [breakLine] at h
  | cons c t ih =>
    intro line rest h
    unfold breakLine at h
    by_cases hterm : isLineTerm c = true
    · rw [if_pos hterm] at h
      by_cases hr : c = '\r'
      · rw [if_pos hr] at h
        split at h
        · simp only [Prod.mk.injEq, Option.some.injEq] at h
          rw [← h.2]
          simp only [List.length_cons]
          omega
        · simp only [Prod.mk.injEq, Option.some.injEq] at h
          rw [← h.2]
          simp only [List.length_cons]
          omega
      · rw [if_neg hr] at h
        simp only [Prod.mk.injEq, Option.some.injEq] at h
        rw [← h.2]
        simp only [List.length_cons]
        omega
    · rw [if_neg hterm] at h
      simp only [Prod.mk.injEq] at h
      obtain ⟨-, h2⟩ := h
      revert h2
      cases hb : breakLine t with
      | mk line0 orest0 =>
        intro h2
        simp only at h2
        cases orest0 with
        | none => exact absurd h2 (by simp)
        | some rest0 =>
          simp only [Option.some.injEq] at h2
          subst h2
          have := ih hb
          simp only [List.length_cons]
          omega

/-- `str.splitlines()`. -/
def pySplitlines (l : List Char) : List (List Char) :=
  match l with
  | [] => []
  | c :: t =>
    match h : breakLine (c :: t) with
    | (line, none) => [line]
    | (line, some rest) => line :: pySplitlines rest
termination_by l.length
decreasing_by exact breakLine_some_length h

/-- `clean_ocr_text` on the character list. -/
def cleanL (l : List Char) : List Char :=
  let t1 := sub_space_runs l
  let t2 := sub_blank_lines t1
  let lines := (pySplitlines t2).map pyStripL
  pyStripL (List.intercalate ['\n'] (lines.filter (fun ln => !ln.isEmpty)))

/-- `clean_ocr_text`. -/
def clean_ocr_text (text : String) : String := (cleanL text.toList).asString

/-! Invariants satisfied by every output of `cleanL`, strong enough to
make a second pass the identity. -/

/-- No two adjacent characters are both in `[ \t]` (what step 1
guarantees). -/
def noSS (a b : Char) : Prop := ¬(isSpaceTab a = true ∧ isSpaceTab b = true)

/-- Adjacency invariant of cleaned text: no two adjacent spaces, and a
newline neighbours only non-whitespace characters. -/
def okPair (a b : Char) : Prop :=
  ¬(a = ' ' ∧ b = ' ') ∧ (a = '\n' → isPyWs b = false) ∧ (b = '\n' → isPyWs a = false)

/-- Invariant of cleaned text: no tabs, no line boundary other than
`\n`, the `okPair` adjacency condition, and non-whitespace first and
last characters. -/
def GoodText (l : List Char) : Prop :=
  (∀ c ∈ l, c ≠ '\t' ∧ (isLineTerm c = true → c = '\n')) ∧
  List.Chain' okPair l ∧
  (∀ c ∈ l.head?, isPyWs c = false) ∧
  (∀ c ∈ l.getLast?, isPyWs c = false)

theorem sub_blank_lines_cons_nl_some {t r : List Char} (hc : chomp t = some r) :
    sub_blank_lines ('\n' :: t) = '\n' :: sub_blank_lines r := by
  conv_lhs => unfold sub_blank_lines
  rw [if_pos rfl]
  split
  · next r0 heq =>
    rw [hc] at heq
    simp only [Option.some.injEq] at heq
    rw [heq]
  · next heq =>
    rw [hc] at heq
    exact absurd heq (by simp)

theorem sub_blank_lines_cons_nl_none {t : List Char} (hc : chomp t = none) :
    sub_blank_lines ('\n' :: t) = '\n' :: sub_blank_lines t := by
  conv_lhs => unfold sub_blank_lines
  rw [if_pos rfl]
  split
  · next r0 heq =>
    rw [hc] at heq
    exact absurd heq (by simp)
  · rfl

theorem sub_blank_lines_cons_other {c : Char} {t : List Char} (hc : ¬(c = '\n')) :
    sub_blank_lines (c :: t) = c :: sub_blank_lines t := by
  conv_lhs => unfold sub_blank_lines
  rw [if_neg hc]

theorem pySplitlines_nil : pySplitlines [] = [] := by
  unfold pySplitlines
  rfl

theorem pySplitlines_cons_none {c : Char} {t line : List Char}
    (h : breakLine (c :: t) = (line, none)) : pySplitlines (c :: t) = [line] := by
  conv_lhs => unfold pySplitlines
  split
  · next line0 heq =>
    rw [h] at heq
    simp only [Prod.mk.injEq] at heq
    rw [heq.1]
  · next line0 rest0 heq =>
    rw [h] at heq
    simp only [Prod.mk.injEq] at heq
    exact absurd heq.2 (by simp)

theorem pySplitlines_cons_some {c : Char} {t line rest : List Char}
    (h : breakLine (c :: t) = (line, some rest)) :
    pySplitlines (c :: t) = line :: pySplitlines rest := by
  conv_lhs => unfold pySplitlines
  split
  · next line0 heq =>
    rw [h] at heq
    simp only [Prod.mk.injEq] at heq
    exact absurd heq.2 (by simp)
  · next line0 rest0 heq =>
    rw [h] at heq
    simp only [Prod.mk.injEq, Option.some.injEq] at heq
    rw [heq.1, heq.2]

theorem dropWhile_head_neg {p : Char → Bool} :
    ∀ {x : List Char} {c : Char}, (x.dropWhile p).head? = some c → p c = false := by
  intro x
  induction x with
  | nil => intro c h; simp [List.dropWhile] at h
  | cons a t ih =>
    intro c h
    rw [List.dropWhile_cons] at h
    by_cases hp : p a = true
    · rw [if_pos hp] at h
      exact ih h
    · rw [if_neg hp] at h
      simp only [List.head?_cons, Option.some.injEq] at h
      rw [← h]
      exact Bool.eq_false_iff.2 hp

theorem getLast?_of_suffix {s x : List Char} (h : s <:+ x) (hne : s ≠ []) :
    s.getLast? = x.getLast? := by
  obtain ⟨t, rfl⟩ := h
  rw [List.getLast?_append]
  cases hs : s.getLast? with
  | none =>
    rw [List.getLast?_eq_none_iff] at hs
    exact absurd hs hne
  | some y => rfl

theorem pyStripL_head_not_ws {x : List Char} {c : Char}
    (h : (pyStripL x).head? = some c) : isPyWs c = false := by
  unfold pyStripL at h
  rw [List.head?_reverse] at h
  have hne : (x.dropWhile isPyWs).reverse.dropWhile isPyWs ≠ [] := by
    intro he
    rw [he] at h
    simp at h
  rw [getLast?_of_suffix (List.dropWhile_suffix _) hne, List.getLast?_reverse] at h
  exact dropWhile_head_neg h

theorem pyStripL_getLast_not_ws {x : List Char} {c : Char}
    (h : (pyStripL x).getLast? = some c) : isPyWs c = false := by
  unfold pyStripL at h
  rw [List.getLast?_reverse] at h
  exact dropWhile_head_neg h

theorem pyStripL_infix_self (x : List Char) : pyStripL x <:+: x := by
  unfold pyStripL
  have h2 : ((x.dropWhile isPyWs).reverse.dropWhile isPyWs).reverse <+:
      x.dropWhile isPyWs := by
    conv_rhs => rw [← List.reverse_reverse (x.dropWhile isPyWs)]
    rw [List.reverse_prefix]
    exact List.dropWhile_suffix _
  exact h2.isInfix.trans (List.dropWhile_suffix _).isInfix

theorem pyStripL_eq_self {l : List Char}
    (h3 : ∀ c ∈ l.head?, isPyWs c = false)
    (h4 : ∀ c ∈ l.getLast?, isPyWs c = false) : pyStripL l = l := by
  unfold pyStripL
  have hd : l.dropWhile isPyWs = l := by
    cases l with
    | nil => rfl
    | cons a t =>
      rw [List.dropWhile_cons, if_neg]
      rw [h3 a (by simp)]
      simp
  rw [hd]
  have hr : l.reverse.dropWhile isPyWs = l.reverse := by
    cases hl : l.reverse with
    | nil => rfl
    | cons a t =>
      rw [List.dropWhile_cons, if_neg]
      have : l.getLast? = some a := by
        rw [← List.head?_reverse, hl]
        rfl
      rw [h4 a this]
      simp
  rw [hr, List.reverse_reverse]

/-! Second-pass identity of each step on `GoodText` input. -/

theorem sub_space_runs_id :
    ∀ (l : List Char), (∀ c ∈ l, c ≠ '\t') →
      List.Chain' (fun a b => ¬(a = ' ' ∧ b = ' ')) l → sub_space_runs l = l := by
  intro l
  induction l with
  | nil => intro _ _; simp [sub_space_runs]
  | cons c t ih =>
    intro h1 h2
    simp only [sub_space_runs]
    by_cases hst : isSpaceTab c = true
    · have hc : c = ' ' := by
        simp only [isSpaceTab, Bool.or_eq_true, beq_iff_eq] at hst
        rcases hst with hst | hst
        · exact hst
        · exact absurd hst (h1 c (by simp))
      rw [if_pos hst]
      subst hc
      have hdw : t.dropWhile isSpaceTab = t := by
        cases t with
        | nil => rfl
        | cons b t2 =>
          rw [List.dropWhile_cons, if_neg]
          have hb1 := (List.chain'_cons.1 h2).1
          have hb2 := h1 b (by simp)
          simp only [isSpaceTab, Bool.or_eq_true, beq_iff_eq]
          rintro (hb | hb)
          · exact hb1 ⟨rfl, hb⟩
          · exact hb2 hb
      rw [hdw, ih (fun x hx => h1 x (by simp [hx])) h2.tail]
    · rw [if_neg hst, ih (fun x hx => h1 x (by simp [hx])) h2.tail]

theorem chomp_of_head_not_ws {t : List Char}
    (h : ∀ c ∈ t.head?, isPyWs c = false) : chomp t = none := by
  cases t with
  | nil => rfl
  | cons c t2 =>
    unfold chomp
    rw [if_neg]
    rw [h c (by simp)]
    simp

theorem sub_blank_lines_id :
    ∀ (l : List Char), List.Chain' (fun a b => a = '\n' → isPyWs b = false) l →
      sub_blank_lines l = l := by
  intro l
  induction l with
  | nil => intro _; simp [sub_blank_lines]
  | cons c t ih =>
    intro h2
    by_cases hnl : c = '\n'
    · subst hnl
      have hc : chomp t = none := by
        apply chomp_of_head_not_ws
        intro b hb
        cases t with
        | nil => simp at hb
        | cons b0 t2 =>
          simp only [List.head?_cons, Option.mem_def, Option.some.injEq] at hb
          subst hb
          exact (List.chain'_cons.1 h2).1 rfl
      rw [sub_blank_lines_cons_nl_none hc, ih h2.tail]
    · rw [sub_blank_lines_cons_other hnl, ih h2.tail]

theorem breakLine_no_term :
    ∀ {l : List Char}, (∀ c ∈ l, isLineTerm c = false) → breakLine l = (l, none) := by
  intro l
  induction l with
  | nil => intro _; rfl
  | cons c t ih =>
    intro h
    unfold breakLine
    rw [if_neg (by rw [h c (by simp)]; simp)]
    rw [ih (fun x hx => h x (by simp [hx]))]

theorem breakLine_pre_nl :
    ∀ {pre suf : List Char}, (∀ c ∈ pre, isLineTerm c = false) →
      breakLine (pre ++ '\n' :: suf) = (pre, some suf) := by
  intro pre
  induction pre with
  | nil =>
    intro suf _
    rw [List.nil_append]
    unfold breakLine
    rw [if_pos (by decide), if_neg (by decide)]
  | cons a pre2 ih =>
    intro suf h
    rw [List.cons_append]
    unfold breakLine
    rw [if_neg (by rw [h a (by simp)]; simp)]
    rw [ih (fun x hx => h x (by simp [hx]))]

theorem first_nl_split :
    ∀ {l : List Char}, '\n' ∈ l →
      ∃ pre suf, l = pre ++ '\n' :: suf ∧ '\n' ∉ pre := by
  intro l
  induction l with
  | nil => intro h; simp at h
  | cons c t ih =>
    intro h
    by_cases hc : c = '\n'
    · exact ⟨[], t, by rw [hc]; rfl, by simp⟩
    · have hm : '\n' ∈ t := by
        rcases List.mem_cons.1 h with h | h
        · exact absurd h.symm hc
        · exact h
      obtain ⟨pre, suf, heq, hnp⟩ := ih hm
      exact ⟨c :: pre, suf, by rw [heq]; rfl, by
        intro hmem
        rcases List.mem_cons.1 hmem with h | h
        · exact hc h.symm
        · exact hnp h⟩

theorem intercalate_cons_ne {s x : List Char} {ys : List (List Char)} (h : ys ≠ []) :
    List.intercalate s (x :: ys) = x ++ s ++ List.intercalate s ys := by
  cases ys with
  | nil => exact absurd rfl h
  | cons y ys2 =>
    unfold List.intercalate
    rw [List.intersperse_cons₂, List.flatten_cons, List.flatten_cons]
    simp [List.append_assoc]

theorem intercalate_singleton_eq (x : List Char) (s : List Char) :
    List.intercalate s [x] = x := by
  unfold List.intercalate
  simp

/-- Rejoining the stripped nonempty split lines of a `GoodText` text
reproduces the text. -/
theorem join_splitlines_id :
    ∀ (l : List Char),
      (∀ c ∈ l, isLineTerm c = true → c = '\n') →
      List.Chain' okPair l →
      (∀ c ∈ l.head?, isPyWs c = false) →
      (∀ c ∈ l.getLast?, isPyWs c = false) →
      List.intercalate ['\n']
        (((pySplitlines l).map pyStripL).filter (fun ln => !ln.isEmpty)) = l := by
  intro l hG1 hG2 hG3 hG4
  match l with
  | [] => rw [pySplitlines_nil]; rfl
  | c :: t => ?_
  by_cases hnl : '\n' ∈ (c :: t)
  · obtain ⟨pre, suf, heq, hpre⟩ := first_nl_split hnl
    have hpre_noterm : ∀ x ∈ pre, isLineTerm x = false := by
      intro x hx
      cases hb : isLineTerm x with
      | false => rfl
      | true =>
        have := hG1 x (by rw [heq]; exact List.mem_append_left _ hx) hb
        rw [this] at hx
        exact absurd hx hpre
    have hchain := hG2
    rw [heq, List.chain'_append] at hchain
    obtain ⟨hchain_pre, hchain_nlsuf, hbound⟩ := hchain
    have hpre_ne : pre ≠ [] := by
      intro hp
      rw [hp, List.nil_append] at heq
      have hws := hG3 c (by simp)
      have hcn : c = '\n' := by
        have := congrArg List.head? heq
        simpa using this
      rw [hcn] at hws
      exact absurd hws (by decide)
    have hsuf_ne : suf ≠ [] := by
      intro hs
      rw [hs] at heq
      have hlast : (c :: t).getLast? = some '\n' := by
        rw [heq, List.getLast?_append]
        rfl
      have := hG4 '\n' hlast
      simp [isPyWs, wsCodes] at this
    have hsuf_head : ∀ x ∈ suf.head?, isPyWs x = false := by
      intro x hx
      have := (List.chain'_cons'.1 hchain_nlsuf).1 x hx
      exact this.2.1 rfl
    have hsuf_last : ∀ x ∈ suf.getLast?, isPyWs x = false := by
      intro x hx
      apply hG4
      rw [heq, List.getLast?_append]
      have hgl : ('\n' :: suf).getLast? = some x := by
        cases suf with
        | nil => exact absurd rfl hsuf_ne
        | cons b s2 =>
          rw [List.getLast?_cons_cons]
          exact hx
      rw [hgl]
      rfl
    have hsplit : pySplitlines (pre ++ '\n' :: suf) = pre :: pySplitlines suf := by
      cases hp : pre with
      | nil => exact absurd hp hpre_ne
      | cons a pre2 =>
        subst hp
        rw [List.cons_append]
        exact pySplitlines_cons_some (breakLine_pre_nl hpre_noterm)
    have hstrip_pre : pyStripL pre = pre := by
      apply pyStripL_eq_self
      · intro x hx
        have hx2 : c = x := by
          cases pre with
          | nil => exact absurd rfl hpre_ne
          | cons a pre2 =>
            rw [List.cons_append] at heq
            simp only [List.head?_cons, Option.mem_def, Option.some.injEq] at hx
            injection heq with h1 h2
            rw [h1, hx]
        rw [← hx2]
        exact hG3 c (by simp)
      · intro x hx
        have := hbound x hx '\n' (by simp)
        exact this.2.2 rfl
    have hsuf_G1 : ∀ x ∈ suf, isLineTerm x = true → x = '\n' := by
      intro x hx hb
      exact hG1 x (by
        rw [heq]
        exact List.mem_append_right _ (List.mem_cons_of_mem _ hx)) hb
    have hIH := join_splitlines_id suf hsuf_G1 hchain_nlsuf.tail hsuf_head hsuf_last
    have hrest_ne :
        ((pySplitlines suf).map pyStripL).filter (fun ln => !ln.isEmpty) ≠ [] := by
      intro h0
      apply hsuf_ne
      rw [h0] at hIH
      rw [← hIH]
      rfl
    rw [heq, hsplit, List.map_cons, hstrip_pre, List.filter_cons, if_pos (by
      cases hp : pre with
      | nil => exact absurd hp hpre_ne
      | cons a pre2 => simp)]
    rw [intercalate_cons_ne hrest_ne, hIH]
    simp [List.append_assoc]
  · have hnoterm : ∀ x ∈ (c :: t), isLineTerm x = false := by
      intro x hx
      cases hb : isLineTerm x with
      | false => rfl
      | true =>
        have := hG1 x hx hb
        rw [this] at hx
        exact absurd hx hnl
    rw [pySplitlines_cons_none (breakLine_no_term hnoterm)]
    rw [List.map_cons, List.map_nil, pyStripL_eq_self hG3 hG4]
    rw [List.filter_cons, if_pos (by simp), List.filter_nil]
    exact intercalate_singleton_eq _ _
termination_by l => l.length
decreasing_by
  rw [heq]
  simp only [List.length_append, List.length_cons]
  omega

/-! First-pass invariants: every `cleanL` output is `GoodText`. -/

theorem sub_space_runs_nil : sub_space_runs [] = [] := by
  simp [sub_space_runs]

theorem sub_blank_lines_nil : sub_blank_lines [] = [] := by
  simp [sub_blank_lines]

theorem tab_not_mem_sub_space_runs : ∀ (l : List Char), '\t' ∉ sub_space_runs l
  | [] => by rw [sub_space_runs_nil]; simp
  | c :: t => by
    simp only [sub_space_runs]
    by_cases hst : isSpaceTab c = true
    · rw [if_pos hst]
      intro hmem
      rcases List.mem_cons.1 hmem with h | h
      · exact absurd h (by decide)
      · exact tab_not_mem_sub_space_runs (t.dropWhile isSpaceTab) h
    · rw [if_neg hst]
      intro hmem
      rcases List.mem_cons.1 hmem with h | h
      · rw [← h] at hst
        exact hst (by decide)
      · exact tab_not_mem_sub_space_runs t h
termination_by l => l.length
decreasing_by
  · have := (List.dropWhile_suffix (l := t) isSpaceTab).length_le
    simp only [List.length_cons]
    omega
  · simp only [List.length_cons]
    omega

theorem sub_space_runs_head_notST {m : List Char}
    (hm : ∀ d ∈ m.head?, isSpaceTab d = false) :
    ∀ h2 ∈ (sub_space_runs m).head?, isSpaceTab h2 = false := by
  intro h2 hh
  cases m with
  | nil =>
    rw [sub_space_runs_nil] at hh
    simp at hh
  | cons d t =>
    simp only [sub_space_runs] at hh
    rw [if_neg (by rw [hm d (by simp)]; simp)] at hh
    simp only [List.head?_cons, Option.mem_def, Option.some.injEq] at hh
    rw [← hh]
    exact hm d (by simp)

theorem chain_noSS_sub_space_runs : ∀ (l : List Char), List.Chain' noSS (sub_space_runs l)
  | [] => by rw [sub_space_runs_nil]; simp
  | c :: t => by
    simp only [sub_space_runs]
    by_cases hst : isSpaceTab c = true
    · rw [if_pos hst, List.chain'_cons']
      constructor
      · intro h2 hh hpair
        have := sub_space_runs_head_notST
          (m := t.dropWhile isSpaceTab) (fun d hd => dropWhile_head_neg hd) h2 hh
        rw [this] at hpair
        exact absurd hpair.2 (by simp)
      · exact chain_noSS_sub_space_runs _
    · rw [if_neg hst, List.chain'_cons']
      refine ⟨?_, chain_noSS_sub_space_runs t⟩
      intro h2 hh hpair
      exact hst hpair.1
termination_by l => l.length
decreasing_by
  · have := (List.dropWhile_suffix (l := t) isSpaceTab).length_le
    simp only [List.length_cons]
    omega
  · simp only [List.length_cons]
    omega

theorem mem_sub_blank_lines : ∀ (l : List Char) (c : Char),
    c ∈ sub_blank_lines l → c ∈ l ∨ c = '\n'
  | [] => by
    intro c h
    rw [sub_blank_lines_nil] at h
    simp at h
  | a :: t => by
    intro c h
    by_cases hnl : a = '\n'
    · subst hnl
      cases hc : chomp t with
      | some r =>
        rw [sub_blank_lines_cons_nl_some hc] at h
        rcases List.mem_cons.1 h with h | h
        · exact Or.inr h
        · rcases mem_sub_blank_lines r c h with h | h
          · exact Or.inl (List.mem_cons_of_mem _ ((chomp_suffix hc).subset h))
          · exact Or.inr h
      | none =>
        rw [sub_blank_lines_cons_nl_none hc] at h
        rcases List.mem_cons.1 h with h | h
        · exact Or.inr h
        · rcases mem_sub_blank_lines t c h with h | h
          · exact Or.inl (List.mem_cons_of_mem _ h)
          · exact Or.inr h
    · rw [sub_blank_lines_cons_other hnl] at h
      rcases List.mem_cons.1 h with h | h
      · exact Or.inl (h ▸ List.mem_cons_self _ _)
      · rcases mem_sub_blank_lines t c h with h | h
        · exact Or.inl (List.mem_cons_of_mem _ h)
        · exact Or.inr h
termination_by l => l.length
decreasing_by
  all_goals first
    | (have h9 := (chomp_suffix hc).length_le
       simp only [List.length_cons]
       omega)
    | (simp only [List.length_cons]
       omega)

theorem sub_blank_lines_head (t : List Char) {h2 : Char}
    (hh : (sub_blank_lines t).head? = some h2) :
    t.head? = some h2 ∨ h2 = '\n' := by
  cases t with
  | nil =>
    rw [sub_blank_lines_nil] at hh
    simp at hh
  | cons a t2 =>
    by_cases hnl : a = '\n'
    · subst hnl
      cases hc : chomp t2 with
      | some r =>
        rw [sub_blank_lines_cons_nl_some hc] at hh
        simp only [List.head?_cons, Option.some.injEq] at hh
        exact Or.inr hh.symm
      | none =>
        rw [sub_blank_lines_cons_nl_none hc] at hh
        simp only [List.head?_cons, Option.some.injEq] at hh
        exact Or.inr hh.symm
    · rw [sub_blank_lines_cons_other hnl] at hh
      simp only [List.head?_cons, Option.some.injEq] at hh
      rw [← hh]
      exact Or.inl rfl

theorem chain_noSS_sub_blank_lines :
    ∀ (l : List Char), List.Chain' noSS l → List.Chain' noSS (sub_blank_lines l)
  | [] => by
    intro _
    rw [sub_blank_lines_nil]
    simp
  | a :: t => by
    intro hch
    by_cases hnl : a = '\n'
    · subst hnl
      cases hc : chomp t with
      | some r =>
        rw [sub_blank_lines_cons_nl_some hc, List.chain'_cons']
        refine ⟨?_, chain_noSS_sub_blank_lines r (hch.tail.suffix (chomp_suffix hc))⟩
        intro h2 hh hpair
        exact absurd hpair.1 (by decide)
      | none =>
        rw [sub_blank_lines_cons_nl_none hc, List.chain'_cons']
        refine ⟨?_, chain_noSS_sub_blank_lines t hch.tail⟩
        intro h2 hh hpair
        exact absurd hpair.1 (by decide)
    · rw [sub_blank_lines_cons_other hnl, List.chain'_cons']
      refine ⟨?_, chain_noSS_sub_blank_lines t hch.tail⟩
      intro h2 hh hpair
      rcases sub_blank_lines_head t hh with h | h
      · exact (List.chain'_cons'.1 hch).1 h2 h ⟨hpair.1, hpair.2⟩
      · rw [h] at hpair
        exact absurd hpair.2 (by decide)
termination_by l => l.length
decreasing_by
  all_goals first
    | (have h9 := (chomp_suffix hc).length_le
       simp only [List.length_cons]
       omega)
    | (simp only [List.length_cons]
       omega)

theorem breakLine_line_noterm_prefix :
    ∀ {l line : List Char} {orest : Option (List Char)},
      breakLine l = (line, orest) →
      (∀ c ∈ line, isLineTerm c = false) ∧ line <+: l := by
  intro l
  induction l with
  | nil =>
    intro line orest h
    unfold breakLine at h
    simp only [Prod.mk.injEq] at h
    rw [← h.1]
    exact ⟨by simp, List.nil_prefix⟩
  | cons c t ih =>
    intro line orest h
    unfold breakLine at h
    by_cases hterm : isLineTerm c = true
    · rw [if_pos hterm] at h
      have hline : line = [] := by
        by_cases hr : c = '\r'
        · rw [if_pos hr] at h
          split at h <;> (simp only [Prod.mk.injEq] at h; exact h.1.symm)
        · rw [if_neg hr] at h
          simp only [Prod.mk.injEq] at h
          exact h.1.symm
      subst hline
      exact ⟨by simp, List.nil_prefix⟩
    · rw [if_neg hterm] at h
      simp only [Prod.mk.injEq] at h
      obtain ⟨h1, -⟩ := h
      obtain ⟨hnt, hpre⟩ := @ih (breakLine t).1 (breakLine t).2 rfl
      rw [← h1]
      constructor
      · intro x hx
        rcases List.mem_cons.1 hx with hx | hx
        · rw [hx]
          exact Bool.eq_false_iff.2 hterm
        · exact hnt x hx
      · obtain ⟨s, hs⟩ := hpre
        exact ⟨s, by rw [List.cons_append, hs]⟩

theorem breakLine_rest_suffix :
    ∀ {l line rest : List Char}, breakLine l = (line, some rest) → rest <:+ l := by
  intro l
  induction l with
  | nil =>
    intro line rest h
    unfold breakLine at h
    simp at h
  | cons c t ih =>
    intro line rest h
    unfold breakLine at h
    by_cases hterm : isLineTerm c = true
    · rw [if_pos hterm] at h
      by_cases hr : c = '\r'
      · rw [if_pos hr] at h
        split at h
        · next t2 =>
          simp only [Prod.mk.injEq, Option.some.injEq] at h
          rw [← h.2]
          exact (List.suffix_cons _ _).trans (List.suffix_cons _ _)
        · simp only [Prod.mk.injEq, Option.some.injEq] at h
          rw [← h.2]
          exact List.suffix_cons _ _
      · rw [if_neg hr] at h
        simp only [Prod.mk.injEq, Option.some.injEq] at h
        rw [← h.2]
        exact List.suffix_cons _ _
    · rw [if_neg hterm] at h
      simp only [Prod.mk.injEq] at h
      obtain ⟨-, h2⟩ := h
      revert h2
      cases hb : (breakLine t).2 with
      | none => intro h2; exact absurd h2 (by simp)
      | some rest0 =>
        intro h2
        simp only [Option.some.injEq] at h2
        subst h2
        have : breakLine t = ((breakLine t).1, some rest0) := by
          rw [← hb]
        exact (ih this).trans (List.suffix_cons _ _)

theorem pySplitlines_line_spec :
    ∀ (l line : List Char), line ∈ pySplitlines l →
      (∀ c ∈ line, isLineTerm c = false) ∧ line <:+: l
  | [], line => by
    intro h
    rw [pySplitlines_nil] at h
    simp at h
  | c :: t, line => by
    intro h
    cases hb : breakLine (c :: t) with
    | mk line0 orest =>
      cases orest with
      | none =>
        rw [pySplitlines_cons_none hb] at h
        simp only [List.mem_singleton] at h
        subst h
        obtain ⟨hnt, hpre⟩ := breakLine_line_noterm_prefix hb
        exact ⟨hnt, hpre.isInfix⟩
      | some rest =>
        rw [pySplitlines_cons_some hb] at h
        rcases List.mem_cons.1 h with h | h
        · subst h
          obtain ⟨hnt, hpre⟩ := breakLine_line_noterm_prefix hb
          exact ⟨hnt, hpre.isInfix⟩
        · obtain ⟨hnt, hinf⟩ := pySplitlines_line_spec rest line h
          exact ⟨hnt, hinf.trans (breakLine_rest_suffix hb).isInfix⟩
termination_by l => l.length
decreasing_by exact breakLine_some_length hb

theorem head?_intercalate_cons {y : List Char} {ys : List (List Char)} (hy : y ≠ []) :
    (List.intercalate ['\n'] (y :: ys)).head? = y.head? := by
  cases ys with
  | nil => rw [intercalate_singleton_eq]
  | cons z zs =>
    rw [intercalate_cons_ne (by simp)]
    cases y with
    | nil => exact absurd rfl hy
    | cons a y2 => rfl

theorem chain_ok_of_noSS_noNl :
    ∀ (x : List Char), (∀ c ∈ x, isLineTerm c = false) → List.Chain' noSS x →
      List.Chain' okPair x := by
  intro x
  induction x with
  | nil => intro _ _; simp
  | cons a t ih =>
    intro hnt hch
    rw [List.chain'_cons'] at hch ⊢
    obtain ⟨hhead, htail⟩ := hch
    refine ⟨?_, ih (fun c hc => hnt c (by simp [hc])) htail⟩
    intro h2 hh
    refine ⟨?_, ?_, ?_⟩
    · intro hpair
      exact hhead h2 hh ⟨by rw [hpair.1]; decide, by rw [hpair.2]; decide⟩
    · intro hnl
      exfalso
      have hx := hnt a (by simp)
      rw [hnl] at hx
      exact absurd hx (by decide)
    · intro hnl
      exfalso
      have hmem : h2 ∈ t := by
        cases t with
        | nil => simp at hh
        | cons b t2 =>
          simp only [List.head?_cons, Option.mem_def, Option.some.injEq] at hh
          rw [← hh]
          exact List.mem_cons_self _ _
      have hx := hnt h2 (List.mem_cons_of_mem _ hmem)
      rw [hnl] at hx
      exact absurd hx (by decide)

/-- Joining nonempty stripped terminator-free lines with `"\n"` yields
`GoodText` output. -/
theorem good_intercalate :
    ∀ (lines : List (List Char)),
      (∀ ln ∈ lines, ln ≠ [] ∧ (∀ c ∈ ln.head?, isPyWs c = false) ∧
        (∀ c ∈ ln.getLast?, isPyWs c = false) ∧
        (∀ c ∈ ln, c ≠ '\t' ∧ isLineTerm c = false) ∧ List.Chain' noSS ln) →
      GoodText (List.intercalate ['\n'] lines) := by
  intro lines
  induction lines with
  | nil =>
    intro _
    refine ⟨by simp [List.intercalate], by simp [List.intercalate], ?_, ?_⟩ <;>
      simp [List.intercalate]
  | cons y ys ih =>
    intro h
    obtain ⟨hy_ne, hy_head, hy_last, hy_mem, hy_chain⟩ := h y (by simp)
    cases ys with
    | nil =>
      rw [intercalate_singleton_eq]
      refine ⟨?_, ?_, hy_head, hy_last⟩
      · intro c hc
        exact ⟨(hy_mem c hc).1, fun ht => absurd ht (by rw [(hy_mem c hc).2]; simp)⟩
      · exact chain_ok_of_noSS_noNl y (fun c hc => (hy_mem c hc).2) hy_chain
    | cons z zs =>
      have hz := h z (by simp)
      obtain ⟨hG1r, hG2r, hG3r, hG4r⟩ := ih (fun ln hln => h ln (by simp [hln]))
      have hrest_ne : List.intercalate ['\n'] (z :: zs) ≠ [] := by
        intro h0
        have hh := @head?_intercalate_cons z zs hz.1
        rw [h0] at hh
        cases hzz : z with
        | nil => exact hz.1 hzz
        | cons b zb =>
          rw [hzz] at hh
          simp at hh
      have hrest_head : ∀ c ∈ (List.intercalate ['\n'] (z :: zs)).head?, isPyWs c = false := by
        intro c hc
        rw [head?_intercalate_cons hz.1] at hc
        exact hz.2.1 c hc
      rw [intercalate_cons_ne (by simp), List.append_assoc]
      have hform : (['\n'] : List Char) ++ List.intercalate ['\n'] (z :: zs) =
          '\n' :: List.intercalate ['\n'] (z :: zs) := rfl
      rw [hform]
      refine ⟨?_, ?_, ?_, ?_⟩
      · intro c hc
        rcases List.mem_append.1 hc with hc | hc
        · exact ⟨(hy_mem c hc).1, fun ht => absurd ht (by rw [(hy_mem c hc).2]; simp)⟩
        · rcases List.mem_cons.1 hc with hc | hc
          · exact ⟨by rw [hc]; decide, fun _ => hc⟩
          · exact hG1r c hc
      · rw [List.chain'_append]
        refine ⟨chain_ok_of_noSS_noNl y (fun c hc => (hy_mem c hc).2) hy_chain, ?_, ?_⟩
        · rw [List.chain'_cons']
          refine ⟨?_, hG2r⟩
          intro h2 hh
          have hws := hrest_head h2 hh
          refine ⟨fun hp => absurd hp.1 (by decide), fun _ => hws, ?_⟩
          intro hb
          exfalso
          rw [hb] at hws
          exact absurd hws (by decide)
        · intro x hx b hb
          simp only [List.head?_cons, Option.mem_def, Option.some.injEq] at hb
          subst hb
          have hws := hy_last x hx
          refine ⟨fun hp => absurd hp.2 (by decide), ?_, fun _ => hws⟩
          intro hx2
          exfalso
          rw [hx2] at hws
          exact absurd hws (by decide)
      · intro c hc
        cases hyy : y with
        | nil => exact absurd hyy hy_ne
        | cons a y2 =>
          rw [hyy] at hc
          simp only [List.cons_append, List.head?_cons, Option.mem_def,
            Option.some.injEq] at hc
          subst hc
          apply hy_head
          rw [hyy]
          rfl
      · intro c hc
        rw [List.getLast?_append] at hc
        cases hrl : (('\n' :: List.intercalate ['\n'] (z :: zs))).getLast? with
        | none =>
          rw [List.getLast?_eq_none_iff] at hrl
          exact absurd hrl (by simp)
        | some w =>
          rw [hrl] at hc
          have hor : (some w).or y.getLast? = some w := rfl
          rw [hor] at hc
          simp only [Option.mem_def, Option.some.injEq] at hc
          subst hc
          apply hG4r
          rw [Option.mem_def]
          cases hri : List.intercalate ['\n'] (z :: zs) with
          | nil => exact absurd hri hrest_ne
          | cons b rb =>
            rw [hri, List.getLast?_cons_cons] at hrl
            exact hrl

/-- Every output of the cleaning pipeline satisfies `GoodText`. -/
theorem good_cleanL (l : List Char) : GoodText (cleanL l) := by
  have hbig : GoodText (List.intercalate ['\n']
      (((pySplitlines (sub_blank_lines (sub_space_runs l))).map pyStripL).filter
        (fun ln => !ln.isEmpty))) := by
    apply good_intercalate
    intro ln hln
    rw [List.mem_filter] at hln
    obtain ⟨hmem, hne⟩ := hln
    rw [List.mem_map] at hmem
    obtain ⟨line, hline, rfl⟩ := hmem
    obtain ⟨hline_noterm, hline_mid⟩ :=
      pySplitlines_line_spec (sub_blank_lines (sub_space_runs l)) line hline
    have hln_ne : pyStripL line ≠ [] := by
      intro h0
      rw [h0] at hne
      simp at hne
    refine ⟨hln_ne, fun c hc => pyStripL_head_not_ws hc,
      fun c hc => pyStripL_getLast_not_ws hc, ?_, ?_⟩
    · intro c hc
      have hcl : c ∈ line := (pyStripL_infix_self line).subset hc
      constructor
      · intro hct
        subst hct
        rcases mem_sub_blank_lines (sub_space_runs l) '\t'
          (hline_mid.subset hcl) with h | h
        · exact tab_not_mem_sub_space_runs _ h
        · exact absurd h (by decide)
      · exact hline_noterm c hcl
    · have hmid := List.Chain'.infix
        (chain_noSS_sub_blank_lines _ (chain_noSS_sub_space_runs l)) hline_mid
      exact List.Chain'.infix hmid (pyStripL_infix_self line)
  obtain ⟨hb1, hb2, -, -⟩ := hbig
  refine ⟨?_, ?_, fun c hc => pyStripL_head_not_ws hc,
    fun c hc => pyStripL_getLast_not_ws hc⟩
  · intro c hc
    exact hb1 c ((pyStripL_infix_self _).subset hc)
  · exact List.Chain'.infix hb2 (pyStripL_infix_self _)

/-- On `GoodText` input the cleaning pipeline is the identity. -/
theorem cleanL_id {l : List Char} (h : GoodText l) : cleanL l = l := by
  obtain ⟨h1, h2, h3, h4⟩ := h
  show pyStripL (List.intercalate ['\n']
    (((pySplitlines (sub_blank_lines (sub_space_runs l))).map pyStripL).filter
      (fun ln => !ln.isEmpty))) = l
  rw [sub_space_runs_id l (fun c hc => (h1 c hc).1) (h2.imp fun a b hab => hab.1)]
  rw [sub_blank_lines_id l (h2.imp fun a b hab => hab.2.1)]
  rw [join_splitlines_id l (fun c hc => (h1 c hc).2) h2 h3 h4]
  exact pyStripL_eq_self h3 h4

end Ocr

/-! ## Text splitter (src/utils/text_splitter.py)

`split_text_into_chunks` delegates to langchain's
`RecursiveCharacterTextSplitter` with `chunk_size=1000` and
`chunk_overlap=100` and the library defaults: separators
`["\n\n", "\n", " ", ""]`, `keep_separator=True` (the separator is
attached to the following piece and pieces are merged with the empty
join separator), `strip_whitespace=True`, and `len` as the length
function.  The library algorithm (`_split_text_with_regex`,
`_merge_splits`, the recursive `_split_text`) is embedded below.  The
recursion over separator lists always moves to a strict suffix, so a
fuel argument initialised to the number of separators makes the
embedding structurally recursive. -/

namespace TextSplitter

/-- The default separator list of `RecursiveCharacterTextSplitter`
(the final `""` is the empty list). -/
def SEPARATORS : List (List Char) :=
  ["\n\n".toList, "\n".toList, " ".toList, []]

/-- The separator-selection loop at the top of `_split_text`: the first
separator that is `""` or occurs in the text is chosen together with
the remaining suffix (`new_separators`); if none matches, the last
separator is chosen with an empty suffix. -/
def chooseSeparator (text : List Char) : List (List Char) → List Char × List (List Char)
  | [] => ([], [])
  | s :: rest =>
    if s.isEmpty then ([], [])
    else if containsSub s text then (s, rest)
    else
      match rest with
      | [] => (s, [])
      | _ :: _ => chooseSeparator text rest

/-- The raw `re.split` pieces for a nonempty literal separator
`a :: p`: text between consecutive non-overlapping occurrences.
Fuel-driven (each step consumes at least one character; the wrapper
passes `text.length`). -/
def splitKeepRaw (a : Char) (p : List Char) : Nat → List Char → List (List Char)
  | 0, text => [text]
  | fuel + 1, text =>
    match breakOnSub a p text with
    | none => [text]
    | some (pre, rest) => pre :: splitKeepRaw a p fuel rest

/-- `_split_text_with_regex(text, separator, keep_separator=True)`:
split on the literal separator keeping it attached to the following
piece, or into single characters for the `""` separator; empty pieces
are dropped. -/
def splitWithSep (sep : List Char) (text : List Char) : List (List Char) :=
  match sep with
  | [] => (text.map (fun c => [c])).filter (fun s => !s.isEmpty)
  | a :: p =>
    match splitKeepRaw a p text.length text with
    | [] => []
    | t0 :: ts =>
      (t0 :: ts.map (fun ti => (a :: p) ++ ti)).filter (fun s => !s.isEmpty)

/-- `_join_docs`: join with the separator, strip (the
`strip_whitespace=True` default), drop the result when empty. -/
def join_docs (separator : List Char) (docs : List (List Char)) : Option (List Char) :=
  let text := pyStripL (List.intercalate separator docs)
  if text.isEmpty then none else some text

/-- The popping loop inside `_merge_splits`: drop leading pieces of the
current document while the running total exceeds the overlap, or while
the total is positive and adding the next piece would exceed the chunk
size.  (`current_doc` is nonempty in the cons arm, so the separator
summand is `sepLen`; the nil arm is unreachable in Python, where the
running total is always the weighted sum of `current_doc`.) -/
def popLoop (chunkSize chunkOverlap sepLen nextLen : Nat) :
    List (List Char) → Nat → List (List Char) × Nat
  | [], total => ([], total)
  | c0 :: rest, total =>
    if total > chunkOverlap ∨ (total + nextLen + sepLen > chunkSize ∧ total > 0) then
      popLoop chunkSize chunkOverlap sepLen nextLen rest
        (total - (c0.length + (if rest.length > 0 then sepLen else 0)))
    else (c0 :: rest, total)

/-- `_merge_splits`: accumulate pieces into `cur` (with running total
`total`); when adding the next piece would exceed the chunk size, emit
the joined current document and pop pieces down to the overlap before
continuing; emit the remaining document at the end. -/
def mergeLoop (cs co : Nat) (separator : List Char) :
    List (List Char) → List (List Char) → Nat → List (List Char)
  | [], cur, _ =>
    match join_docs separator cur with
    | some doc => [doc]
    | none => []
  | d :: ds, cur, total =>
    if total + d.length + (if cur.length > 0 then separator.length else 0) > cs then
      if cur.length > 0 then
        match join_docs separator cur,
            popLoop cs co separator.length d.length cur total with
        | some doc, p =>
          doc :: mergeLoop cs co separator ds (p.1 ++ [d])
            (p.2 + d.length + (if p.1.length > 0 then separator.length else 0))
        | none, p =>
          mergeLoop cs co separator ds (p.1 ++ [d])
            (p.2 + d.length + (if p.1.length > 0 then separator.length else 0))
      else mergeLoop cs co separator ds [d] (total + d.length)
    else
      mergeLoop cs co separator ds (cur ++ [d])
        (total + d.length + (if cur.length > 0 then separator.length else 0))

/-- `_merge_splits` entry point. -/
def merge_splits (cs co : Nat) (separator : List Char)
    (splits : List (List Char)) : List (List Char) :=
  mergeLoop cs co separator splits [] 0

/-- The two kinds of work items produced by the split-processing loop
of `_split_text`: a maximal run of accumulated good pieces (each
shorter than the chunk size) to be merged, or a single long piece to be
recursed into (or emitted as-is when no separators remain). -/
inductive SplitItem where
  | merged (goods : List (List Char))
  | long (s : List Char)

/-- The `for s in splits` loop of `_split_text`, reified: good pieces
accumulate; a long piece flushes the accumulated run (when nonempty)
and stands alone; a trailing run is flushed at the end. -/
def groupSplits (cs : Nat) : List (List Char) → List (List Char) → List SplitItem
  | [], goods => if goods.isEmpty then [] else [SplitItem.merged goods]
  | s :: ss, goods =>
    if s.length < cs then groupSplits cs ss (goods ++ [s])
    else
      (if goods.isEmpty then [] else [SplitItem.merged goods]) ++
        (SplitItem.long s :: groupSplits cs ss [])

/-- `RecursiveCharacterTextSplitter._split_text`.  With
`keep_separator=True` the merge separator is always `""` (`[]`).  The
fuel starts at the separator-list length; each recursive call moves to
a strict suffix of the separator list, so the zero-fuel arm is
unreachable from `split_text_into_chunks`. -/
def splitTextF (cs co : Nat) : Nat → List Char → List (List Char) → List (List Char)
  | 0, text, _ => [text]
  | fuel + 1, text, separators =>
    ((groupSplits cs (splitWithSep (chooseSeparator text separators).1 text) []).map
      (fun item =>
        match item with
        | SplitItem.merged goods => merge_splits cs co [] goods
        | SplitItem.long s =>
          if (chooseSeparator text separators).2.isEmpty then [s]
          else splitTextF cs co fuel s (chooseSeparator text separators).2)).flatten

/-- `split_text_into_chunks`: the page contents of the documents
returned by `splitter.split_documents([Document(page_content=text)])`,
i.e. `splitter.split_text(text)` with the configured chunk size and
overlap. -/
def split_text_into_chunks (text : String) : List String :=
  (splitTextF Config.CHUNK_SIZE Config.CHUNK_OVERLAP SEPARATORS.length
    text.toList SEPARATORS).map List.asString

end TextSplitter

/-- C10: `clean_ocr_text` is idempotent: cleaning already-cleaned OCR
text changes nothing. -/
theorem clean_ocr_text_idempotent (t : String) :
    Ocr.clean_ocr_text (Ocr.clean_ocr_text t) = Ocr.clean_ocr_text t := by
  unfold Ocr.clean_ocr_text
  have htl : ((Ocr.cleanL t.toList).asString).toList = Ocr.cleanL t.toList := rfl
  rw [htl]
  exact congrArg List.asString (Ocr.cleanL_id (Ocr.good_cleanL t.toList))

/-! ## C1: chunk length bound and the overlap clause

The chunk-size half of the claim is proved for every input
(`split_text_chunks_bounded` below).  The overlap half is refuted:
between merge groups the splitter carries nothing over, so adjacent
chunks can share no characters at all (`splitter_overlap_not_exact`). -/

namespace TextSplitter

/-- Joining with the empty separator is concatenation. -/
theorem intercalate_nil_eq_flatten : ∀ (l : List (List Char)),
    List.intercalate [] l = l.flatten
  | [] => rfl
  | [x] => by simp [List.intercalate]
  | x :: y :: ys => by
    have ih := intercalate_nil_eq_flatten (y :: ys)
    unfold List.intercalate at ih ⊢
    rw [List.intersperse_cons₂, List.flatten_cons, List.flatten_cons, ih]
    simp

/-- Separator selection on a list ending in the empty separator either
picks the empty separator with no remainder, or picks a nonempty one
whose remainder is a shorter list still ending in the empty
separator. -/
theorem chooseSeparator_spec (text : List Char) : ∀ (seps : List (List Char)),
    seps.getLast? = some [] →
    ((chooseSeparator text seps).1 = [] ∧ (chooseSeparator text seps).2 = []) ∨
    ((chooseSeparator text seps).2 ≠ [] ∧ (chooseSeparator text seps).2.getLast? = some [] ∧
      (chooseSeparator text seps).2.length < seps.length)
  | [], h => by simp at h
  | [s], h => by
    have hs : s = [] := by simpa using h
    subst hs
    left
    exact ⟨rfl, rfl⟩
  | s :: r :: rs, h => by
    rw [List.getLast?_cons_cons] at h
    unfold chooseSeparator
    by_cases he : s.isEmpty
    · rw [if_pos he]; left; exact ⟨rfl, rfl⟩
    · rw [if_neg he]
      by_cases hc : containsSub s text
      · rw [if_pos hc]
        right
        exact ⟨by simp, h, by simp⟩
      · rw [if_neg hc]
        rcases chooseSeparator_spec text (r :: rs) h with hA | hB
        · left; exact hA
        · right
          exact ⟨hB.1, hB.2.1, Nat.lt_trans hB.2.2 (by simp)⟩

/-- Splitting on the empty separator yields single characters. -/
theorem splitWithSep_nil_length {text s : List Char}
    (h : s ∈ splitWithSep [] text) : s.length = 1 := by
  unfold splitWithSep at h
  rw [List.mem_filter] at h
  obtain ⟨h1, _⟩ := h
  rw [List.mem_map] at h1
  obtain ⟨c, _, rfl⟩ := h1
  rfl

/-- Items of the split-processing loop: every piece of a merged run is
shorter than the chunk size, and every long piece is one of the splits
and at least the chunk size. -/
theorem groupSplits_spec (cs : Nat) : ∀ (splits goods : List (List Char)),
    (∀ g ∈ goods, g.length < cs) →
    ∀ item ∈ groupSplits cs splits goods,
      (∀ gs, item = SplitItem.merged gs → ∀ g ∈ gs, g.length < cs) ∧
      (∀ s, item = SplitItem.long s → s ∈ splits ∧ ¬ s.length < cs)
  | [], goods, hg, item, hmem => by
    unfold groupSplits at hmem
    by_cases hge : goods.isEmpty
    · rw [if_pos hge] at hmem; simp at hmem
    · rw [if_neg hge] at hmem
      simp at hmem
      subst hmem
      constructor
      · intro gs hgs
        cases hgs
        exact hg
      · intro s hs
        exact SplitItem.noConfusion hs
  | s :: ss, goods, hg, item, hmem => by
    unfold groupSplits at hmem
    by_cases hlt : s.length < cs
    · rw [if_pos hlt] at hmem
      have hg2 : ∀ g ∈ goods ++ [s], g.length < cs := by
        intro g hgm
        rcases List.mem_append.1 hgm with h1 | h1
        · exact hg g h1
        · simp at h1; subst h1; exact hlt
      have hrec := groupSplits_spec cs ss (goods ++ [s]) hg2 item hmem
      refine ⟨hrec.1, ?_⟩
      intro t ht
      obtain ⟨hmem2, hlen⟩ := hrec.2 t ht
      exact ⟨List.mem_cons_of_mem _ hmem2, hlen⟩
    · rw [if_neg hlt] at hmem
      rw [List.mem_append] at hmem
      rcases hmem with h1 | h1
      · by_cases hge : goods.isEmpty
        · rw [if_pos hge] at h1; simp at h1
        · rw [if_neg hge] at h1
          simp at h1
          subst h1
          constructor
          · intro gs hgs
            cases hgs
            exact hg
          · intro t ht
            exact SplitItem.noConfusion ht
      · rw [List.mem_cons] at h1
        rcases h1 with h1 | h1
        · subst h1
          constructor
          · intro gs hgs
            exact SplitItem.noConfusion hgs
          · intro t ht
            cases ht
            exact ⟨List.mem_cons_self _ _, hlt⟩
        · have hrec := groupSplits_spec cs ss []
            (by intro g hgm; simp at hgm) item h1
          refine ⟨hrec.1, ?_⟩
          intro t ht
          obtain ⟨hmem2, hlen⟩ := hrec.2 t ht
          exact ⟨List.mem_cons_of_mem _ hmem2, hlen⟩

/-- With the empty merge separator, the popping loop keeps the running
total equal to the summed length of the retained pieces and exits at or
below the overlap, with room for the next piece unless everything was
popped. -/
theorem popLoop_spec (cs co nextLen : Nat) : ∀ (cur : List (List Char)) (total : Nat),
    total = (cur.map List.length).sum →
    (popLoop cs co 0 nextLen cur total).2 =
      ((popLoop cs co 0 nextLen cur total).1.map List.length).sum ∧
    (popLoop cs co 0 nextLen cur total).2 ≤ co ∧
    ((popLoop cs co 0 nextLen cur total).2 + nextLen ≤ cs ∨
      (popLoop cs co 0 nextLen cur total).2 = 0)
  | [], total, ht => by
    unfold popLoop
    subst ht
    simp
  | c0 :: rest, total, ht => by
    unfold popLoop
    by_cases hcond : total > co ∨ (total + nextLen + 0 > cs ∧ total > 0)
    · rw [if_pos hcond]
      have hnew : total - (c0.length + (if rest.length > 0 then 0 else 0)) =
          (rest.map List.length).sum := by
        rw [ite_self, Nat.add_zero, ht, List.map_cons, List.sum_cons,
          Nat.add_sub_cancel_left]
      exact popLoop_spec cs co nextLen rest _ hnew
    · rw [if_neg hcond]
      push_neg at hcond
      obtain ⟨h1, h2⟩ := hcond
      refine ⟨ht, h1, ?_⟩
      by_cases hgt : total + nextLen + 0 > cs
      · have := h2 hgt
        right
        omega
      · left
        omega

/-- A document joined with the empty separator is no longer than the
summed length of its pieces. -/
theorem join_docs_length {cur : List (List Char)} {doc : List Char}
    (h : join_docs [] cur = some doc) :
    doc.length ≤ (cur.map List.length).sum := by
  simp only [join_docs] at h
  by_cases he : (pyStripL (List.intercalate [] cur)).isEmpty
  · rw [if_pos he] at h
    exact Option.noConfusion h
  · rw [if_neg he] at h
    injection h with h
    subst h
    calc (pyStripL (List.intercalate [] cur)).length
        ≤ (List.intercalate [] cur).length := (Ocr.pyStripL_infix_self _).sublist.length_le
      _ = (cur.map List.length).sum := by
          rw [intercalate_nil_eq_flatten]
          exact List.length_flatten _

/-- Merging pieces each shorter than the chunk size with the empty
separator yields only documents of at most the chunk size, given the
loop invariant that the running total is the summed length of the
current document and at most the chunk size. -/
theorem mergeLoop_bounded (cs co : Nat) : ∀ (ds cur : List (List Char)) (total : Nat),
    (∀ d ∈ ds, d.length < cs) →
    total = (cur.map List.length).sum →
    total ≤ cs →
    ∀ c ∈ mergeLoop cs co [] ds cur total, c.length ≤ cs
  | [], cur, total, _, hsum, hle, c, hmem => by
    unfold mergeLoop at hmem
    cases hj : join_docs [] cur with
    | none =>
      simp only [hj] at hmem
      simp at hmem
    | some doc =>
      simp only [hj] at hmem
      simp at hmem
      subst hmem
      have h1 := join_docs_length hj
      omega
  | d :: ds, cur, total, hd, hsum, hle, c, hmem => by
    have hdlen : d.length < cs := hd d (List.mem_cons_self _ _)
    have hds : ∀ x ∈ ds, x.length < cs := fun x hx => hd x (List.mem_cons_of_mem _ hx)
    unfold mergeLoop at hmem
    simp only [List.length_nil, ite_self, Nat.add_zero] at hmem
    by_cases hover : total + d.length > cs
    · rw [if_pos hover] at hmem
      by_cases hne : cur.length > 0
      · rw [if_pos hne] at hmem
        obtain ⟨hp1, hp2, hp3⟩ := popLoop_spec cs co d.length cur total hsum
        cases hj : join_docs [] cur with
        | some doc =>
          simp only [hj] at hmem
          rw [List.mem_cons] at hmem
          rcases hmem with hmem | hmem
          · subst hmem
            have h1 := join_docs_length hj
            omega
          · refine mergeLoop_bounded cs co ds _ _ hds ?_ ?_ c hmem
            · simp only [List.map_append, List.sum_append, List.map_cons,
                List.map_nil, List.sum_cons, List.sum_nil]
              omega
            · rcases hp3 with h3 | h3
              · omega
              · omega
        | none =>
          simp only [hj] at hmem
          refine mergeLoop_bounded cs co ds _ _ hds ?_ ?_ c hmem
          · simp only [List.map_append, List.sum_append, List.map_cons,
              List.map_nil, List.sum_cons, List.sum_nil]
            omega
          · rcases hp3 with h3 | h3
            · omega
            · omega
      · rw [if_neg hne] at hmem
        refine mergeLoop_bounded cs co ds [d] (total + d.length) hds ?_ ?_ c hmem
        · have hc0 : cur = [] := by
            cases cur with
            | nil => rfl
            | cons x xs => exact absurd (by simp) hne
          subst hc0
          simp at hsum
          subst hsum
          simp
        · have hc0 : cur = [] := by
            cases cur with
            | nil => rfl
            | cons x xs => exact absurd (by simp) hne
          subst hc0
          simp at hsum
          omega
    · rw [if_neg hover] at hmem
      refine mergeLoop_bounded cs co ds (cur ++ [d]) _ hds ?_ ?_ c hmem
      · simp only [List.map_append, List.sum_append, List.map_cons,
          List.map_nil, List.sum_cons, List.sum_nil]
        omega
      · omega

/-- Every chunk produced by the recursive splitter is at most the chunk
size, provided the separator list is nonempty, ends in the empty
separator, fits in the fuel, and the chunk size exceeds 1. -/
theorem splitTextF_bounded (cs co : Nat) (hcs : 1 < cs) : ∀ (fuel : Nat)
    (text : List Char) (seps : List (List Char)),
    seps ≠ [] → seps.getLast? = some [] → seps.length ≤ fuel →
    ∀ c ∈ splitTextF cs co fuel text seps, c.length ≤ cs
  | 0, text, seps, hne, _, hlen => by
    exfalso
    cases seps with
    | nil => exact hne rfl
    | cons x xs => simp at hlen
  | fuel + 1, text, seps, hne, hlast, hlen => by
    intro c hmem
    unfold splitTextF at hmem
    rw [List.mem_flatten] at hmem
    obtain ⟨l, hl, hcl⟩ := hmem
    rw [List.mem_map] at hl
    obtain ⟨item, hitem, rfl⟩ := hl
    have hspec := groupSplits_spec cs
      (splitWithSep (chooseSeparator text seps).1 text) []
      (by intro g hg; simp at hg) item hitem
    cases item with
    | merged goods =>
      dsimp only at hcl
      have hgood : ∀ g ∈ goods, g.length < cs := hspec.1 goods rfl
      exact mergeLoop_bounded cs co goods [] 0 hgood rfl (Nat.zero_le _) c hcl
    | long s =>
      dsimp only at hcl
      obtain ⟨hs_mem, hs_len⟩ := hspec.2 s rfl
      rcases chooseSeparator_spec text seps hlast with ⟨h1, h2⟩ | ⟨h1, h2, h3⟩
      · exfalso
        rw [h1] at hs_mem
        have := splitWithSep_nil_length hs_mem
        omega
      · have hselF : (chooseSeparator text seps).2.isEmpty = false := by
          cases hc2 : (chooseSeparator text seps).2 with
          | nil => exact absurd hc2 h1
          | cons x xs => rfl
        simp only [hselF, Bool.false_eq_true, if_false] at hcl
        have hlen2 : (chooseSeparator text seps).2.length ≤ fuel := by omega
        exact splitTextF_bounded cs co hcs fuel s _
          (by intro hh; rw [hh] at hselF; simp at hselF) h2 hlen2 c hcl

/-- The overlap clause of the chunking claim, phrased from the spec:
the overlap region between a chunk and its successor has length exactly
`CHUNK_OVERLAP`, i.e. the final `CHUNK_OVERLAP` characters of the chunk
are the first `CHUNK_OVERLAP` characters of the next one. -/
def overlapExact (a b : String) : Prop :=
  (a.toList.reverse.take Config.CHUNK_OVERLAP).reverse =
    b.toList.take Config.CHUNK_OVERLAP

instance : DecidableRel overlapExact := fun a b =>
  inferInstanceAs (Decidable
    ((a.toList.reverse.take Config.CHUNK_OVERLAP).reverse =
      b.toList.take Config.CHUNK_OVERLAP))

instance decChainOverlap : ∀ (l : List String), Decidable (List.Chain' overlapExact l)
  | [] => isTrue List.chain'_nil
  | [a] => isTrue (List.chain'_singleton a)
  | a :: b :: t =>
    have : Decidable (List.Chain' overlapExact (b :: t)) := decChainOverlap (b :: t)
    decidable_of_iff (overlapExact a b ∧ List.Chain' overlapExact (b :: t))
      List.chain'_cons.symm

/-- The chunking claim as the spec words it: every chunk is at most
`CHUNK_SIZE` characters, and every adjacent pair of chunks other than
pairs involving the final chunk overlaps by exactly `CHUNK_OVERLAP`
characters. -/
def ClaimC1 (t : String) : Prop :=
  (∀ c ∈ split_text_into_chunks t, c.length ≤ Config.CHUNK_SIZE) ∧
    List.Chain' overlapExact (split_text_into_chunks t).dropLast

instance (t : String) : Decidable (ClaimC1 t) :=
  inferInstanceAs (Decidable
    ((∀ c ∈ split_text_into_chunks t, c.length ≤ Config.CHUNK_SIZE) ∧
      List.Chain' overlapExact (split_text_into_chunks t).dropLast))

/-- Four space-separated words of 401, 599, 400 and 1 characters.  The
splitter returns the chunks a^401, b^599 and (c^400 ++ " d"): before
each new chunk the merge loop pops the whole current document (every
piece exceeds the 100-character overlap), so adjacent chunks share no
characters at all. -/
def ccText : String :=
  (List.replicate 401 'a' ++ ' ' ::
    (List.replicate 599 'b' ++ ' ' ::
      (List.replicate 400 'c' ++ [' ', 'd']))).asString

end TextSplitter

set_option maxRecDepth 100000 in
set_option maxHeartbeats 4000000 in
/-- C1 counterexample: on four space-separated words of 401, 599, 400
and 1 characters the splitter produces three chunks; the first two
chunks are adjacent, neither is the final chunk, and they share no
characters at all, so their overlap region is empty rather than exactly
`CHUNK_OVERLAP` (100). -/
theorem splitter_overlap_not_exact : ¬ TextSplitter.ClaimC1 TextSplitter.ccText :=
  fun h => absurd h.2 (by decide)

/-- C1 (amended): every chunk produced by `split_text_into_chunks` has
length at most `CHUNK_SIZE` (1000).  The overlap clause does not hold:
adjacent chunks overlap by at most `CHUNK_OVERLAP` carried-over
characters, and the overlap is frequently shorter or empty. -/
theorem split_text_chunks_bounded (t : String) :
    ∀ c ∈ TextSplitter.split_text_into_chunks t, c.length ≤ Config.CHUNK_SIZE := by
  intro c hc
  unfold TextSplitter.split_text_into_chunks at hc
  rw [List.mem_map] at hc
  obtain ⟨l, hl, rfl⟩ := hc
  exact TextSplitter.splitTextF_bounded Config.CHUNK_SIZE Config.CHUNK_OVERLAP
    (by decide) TextSplitter.SEPARATORS.length t.toList TextSplitter.SEPARATORS
    (by decide) (by decide) le_rfl l hl

/-- Witness for C1: on the input "hello world" the splitter returns the
text itself as the single chunk, and its length is within the bound. -/
theorem split_text_chunks_bounded_witness :
    "hello world" ∈ TextSplitter.split_text_into_chunks "hello world" ∧
      ("hello world" : String).length ≤ Config.CHUNK_SIZE :=
  ⟨by decide, split_text_chunks_bounded "hello world" "hello world" (by decide)⟩

end AgenticQA
